import Mathlib

/-!
The stitching and normalization engine of gtrends.go

A shallow embedding of `findScaleValue` and `normalizeData` from `gtrends.go`.

Modelling conventions.

* A Go `map[int64]int` is a finite association with unique keys: `GoMap`, an
  `AList` from `Int` keys to `Int` values.  A Go `range` loop visits the entries in
  an unspecified order; here it visits them in the order of the entry list, and
  every theorem is proved for all maps, hence for every visiting order. In exact
  arithmetic the result does not depend on that order (`normalizeData_congr`); in
  machine arithmetic it can (`normalizeDataF64_order_sample`).
* `normalizeData` mutates its first argument; here it returns the mutated map.
* The two functions are embedded twice, with the same control flow.
  - `findScaleValueF64`, `normalizeStepF64`, `normalizeDataF64` follow the machine
    arithmetic of the source. A `float64` is the rational it denotes; every
    `float64` operation (`float64(i)`, `/`, `+=`, `*`) is the exact operation followed
    by `f64`, rounding to the nearest number with a 53 bit significand, ties to the
    even significand. `math.Round` is exact on such numbers. `int(x)` is `toInt64`:
    truncation when the result fits 64 bits; otherwise Go leaves the result to the
    implementation and `toInt64` takes the amd64 result, the least `int64`. The
    exponent of `f64` is unbounded: the magnitudes the code reaches from `int64`
    values lie between `2 ^ (-200)` and `2 ^ 200`, far inside the normal range of
    `float64`, so neither infinities, subnormal numbers nor `NaN` occur.
  - `findScaleValue`, `normalizeStep`, `normalizeData` are the same code in exact
    rational arithmetic (`f64` replaced by the identity, `int` unbounded). They
    serve the statements made in exact arithmetic and those that do not depend on
    the arithmetic at all (key sets, kept values, the sign of the scale).
-/

namespace GTrends

/-- Go `map[int64]int`: finitely many entries, no key twice. -/
abbrev GoMap : Type := AList (fun _ : Int => Int)

/-- An entry `(key, value)` of a `GoMap`. -/
abbrev Entry : Type := Sigma (fun _ : Int => Int)

/-- Go `math.Round`: the nearest integer, halves rounded away from zero (exact on
every `float64`). -/
def mathRound (x : ℚ) : ℚ :=
  if 0 ≤ x then ((⌊x + 1 / 2⌋ : Int) : ℚ) else -((⌊-x + 1 / 2⌋ : Int) : ℚ)

/-- Go conversion `int(x)` of a float in exact arithmetic: the fraction is discarded
(truncation toward zero), with no bound on the result; `toInt64` is the 64 bit
conversion. -/
def toInt (x : ℚ) : Int :=
  if 0 ≤ x then ⌊x⌋ else ⌈x⌉

/-- One iteration of the loop of `findScaleValue` (lines 175-184) in exact rational
arithmetic: the state is `(scaleValueSum, n)`. -/
def findScaleStep (existingData : GoMap) (acc : ℚ × Nat) (e : Entry) : ℚ × Nat :=
  match existingData.lookup e.1 with
  | some ev =>
    if ev ≠ 0 ∧ e.2 ≠ 0 then (acc.1 + (ev : ℚ) / (e.2 : ℚ), acc.2 + 1) else acc
  | none => acc

/-- Source `findScaleValue` (lines 168-191) in exact rational arithmetic; the
`float64` computation is `findScaleValueF64`. -/
def findScaleValue (existingData newData : GoMap) : ℚ :=
  let r := newData.entries.foldl (findScaleStep existingData) (0, 0)
  if r.2 ≠ 0 then r.1 / (r.2 : ℚ) else 0

/-- One iteration of the merge loop of `normalizeData` (lines 230-247) in exact
rational arithmetic; the `float64` computation is `normalizeStepF64`. -/
def normalizeStep (scaleValue : ℚ) (existingData : GoMap) (e : Entry) : GoMap :=
  let normalizedValue := mathRound ((e.2 : ℚ) * scaleValue)
  match existingData.lookup e.1 with
  | some ev =>
    if ev = 0 ∧ e.2 ≠ 0 ∧ scaleValue ≠ 0 then
      existingData.insert e.1 (toInt normalizedValue)
    else if ev = 0 ∧ e.2 ≠ 0 ∧ scaleValue = 0 then
      existingData.insert e.1 e.2
    else existingData
  | none => existingData.insert e.1 (toInt normalizedValue)

/-- The pruning loop of `normalizeData` (lines 251-259): every key of the series
that the new window does not have is deleted. -/
def prune (existingData newData : GoMap) : GoMap :=
  existingData.keys.foldl
    (fun m key => if (newData.lookup key).isSome then m else m.erase key) existingData

/-- Source `normalizeData` (lines 214-260) in exact rational arithmetic; the result
is the final content of `existingData`. The machine computation is
`normalizeDataF64`. -/
def normalizeData (existingData newData : GoMap) : GoMap :=
  if existingData.entries.length = 0 then
    newData.entries.foldl (fun m e => m.insert e.1 e.2) existingData
  else
    let scaleValue := findScaleValue existingData newData
    let merged := newData.entries.foldl (normalizeStep scaleValue) existingData
    prune merged newData

/-- The power `2 ^ k` for an integer exponent. -/
def pow2 (k : Int) : ℚ :=
  if 0 ≤ k then ((2 ^ k.toNat : Nat) : ℚ) else 1 / ((2 ^ (-k).toNat : Nat) : ℚ)

/-- Halving loop for `ilog2`; the first argument bounds the number of rounds. -/
def log2Aux : Nat → Nat → Nat
  | 0, _ => 0
  | fuel + 1, n => if 2 ≤ n then log2Aux fuel (n / 2) + 1 else 0

/-- The position of the leading bit: `2 ^ ilog2 n ≤ n < 2 ^ (ilog2 n + 1)` for `n ≥ 1`. -/
def ilog2 (n : Nat) : Nat := log2Aux n n

/-- The binary exponent of a non-zero rational: `2 ^ binExp x ≤ |x| < 2 ^ (binExp x + 1)`. -/
def binExp (x : ℚ) : Int :=
  let k : Int := (ilog2 x.num.natAbs : Int) - (ilog2 x.den : Int)
  if pow2 k ≤ |x| then k else k - 1

/-- Rounding to the nearest integer, a half going to the even neighbour. -/
def roundHalfEven (y : ℚ) : Int :=
  if y - (⌊y⌋ : Int) < 1 / 2 then ⌊y⌋
  else if 1 / 2 < y - (⌊y⌋ : Int) then ⌊y⌋ + 1
  else if ⌊y⌋ % 2 = 0 then ⌊y⌋ else ⌊y⌋ + 1

/-- The `float64` nearest to `x` (IEEE 754 round to nearest, ties to even): `x` is
scaled so that its magnitude lies in `[2 ^ 52, 2 ^ 53)`, rounded to an integer with
`roundHalfEven` and scaled back. The exponent is not bounded. -/
def f64 (x : ℚ) : ℚ :=
  if x = 0 then 0
  else if 0 ≤ x then (roundHalfEven (x / pow2 (binExp x - 52)) : ℚ) * pow2 (binExp x - 52)
  else -((roundHalfEven (-x / pow2 (binExp x - 52)) : ℚ) * pow2 (binExp x - 52))

/-- Go conversion `int(x)` of a `float64` to the 64 bit `int`: the fraction is
discarded; when the result does not fit, the least `int64` (the amd64 result of a
conversion that the language leaves to the implementation). -/
def toInt64 (x : ℚ) : Int :=
  if -9223372036854775808 ≤ toInt x ∧ toInt x ≤ 9223372036854775807 then toInt x
  else -9223372036854775808

/-- One iteration of the loop of `findScaleValue` (lines 175-184) in `float64`: the
state is `(scaleValueSum, n)`; line 180 converts both values, divides and adds. -/
def findScaleStepF64 (existingData : GoMap) (acc : ℚ × Nat) (e : Entry) : ℚ × Nat :=
  match existingData.lookup e.1 with
  | some ev =>
    if ev ≠ 0 ∧ e.2 ≠ 0 then
      (f64 (acc.1 + f64 (f64 (ev : ℚ) / f64 (e.2 : ℚ))), acc.2 + 1)
    else acc
  | none => acc

/-- Source `findScaleValue` (lines 168-191) in `float64`. -/
def findScaleValueF64 (existingData newData : GoMap) : ℚ :=
  let r := newData.entries.foldl (findScaleStepF64 existingData) (0, 0)
  if r.2 ≠ 0 then f64 (r.1 / f64 (r.2 : ℚ)) else 0

/-- One iteration of the merge loop of `normalizeData` (lines 230-247) with the
`float64` product of line 231 and the 64 bit conversions of lines 236 and 245. -/
def normalizeStepF64 (scaleValue : ℚ) (existingData : GoMap) (e : Entry) : GoMap :=
  let normalizedValue := mathRound (f64 (f64 (e.2 : ℚ) * scaleValue))
  match existingData.lookup e.1 with
  | some ev =>
    if ev = 0 ∧ e.2 ≠ 0 ∧ scaleValue ≠ 0 then
      existingData.insert e.1 (toInt64 normalizedValue)
    else if ev = 0 ∧ e.2 ≠ 0 ∧ scaleValue = 0 then
      existingData.insert e.1 e.2
    else existingData
  | none => existingData.insert e.1 (toInt64 normalizedValue)

/-- Source `normalizeData` (lines 214-260) in machine arithmetic; the result is the
final content of `existingData`. -/
def normalizeDataF64 (existingData newData : GoMap) : GoMap :=
  if existingData.entries.length = 0 then
    newData.entries.foldl (fun m e => m.insert e.1 e.2) existingData
  else
    let scaleValue := findScaleValueF64 existingData newData
    let merged := newData.entries.foldl (normalizeStepF64 scaleValue) existingData
    prune merged newData

/-- The `float64` product `float64(value) * scaleValue` of line 231. -/
def scaledF64 (value : Int) (scaleValue : ℚ) : ℚ :=
  f64 (f64 (value : ℚ) * scaleValue)

/-- The value the merge loop of `normalizeDataF64` leaves at a timestamp of the new
window, as a function of the value found in the series before the loop. -/
def mergedValueF64 (scaleValue : ℚ) (old : Option Int) (value : Int) : Int :=
  match old with
  | some ev =>
    if ev = 0 ∧ value ≠ 0 ∧ scaleValue ≠ 0 then toInt64 (mathRound (scaledF64 value scaleValue))
    else if ev = 0 ∧ value ≠ 0 ∧ scaleValue = 0 then value
    else ev
  | none => toInt64 (mathRound (scaledF64 value scaleValue))

/-- An integer fits the 64 bit `int`. -/
abbrev fitsInt64 (r : Int) : Prop :=
  -9223372036854775808 ≤ r ∧ r ≤ 9223372036854775807

/-- The map with the given entries, later entries of the list written first. -/
def ofList (l : List (Int × Int)) : GoMap :=
  l.foldr (fun p m => m.insert p.1 p.2) ∅

/-- The series `{100: 50}`. -/
def seriesFifty : GoMap := ofList [(100, 50)]

/-- The window `{100: 25, 200: 10}`. -/
def windowQuarter : GoMap := ofList [(100, 25), (200, 10)]

/-- The series `{100: 0}`. -/
def seriesZero : GoMap := ofList [(100, 0)]

/-- The window `{100: 5, 200: 5}`. -/
def windowFive : GoMap := ofList [(100, 5), (200, 5)]

/-- The series `{1: 1}`. -/
def seriesUnit : GoMap := ofList [(1, 1)]

/-- The window `{1: 5, 2: 3, 3: 2}`. -/
def windowMixed : GoMap := ofList [(1, 5), (2, 3), (3, 2)]

/-- The series `{1: 7}`. -/
def seriesSeven : GoMap := ofList [(1, 7)]

/-- The series `{1: 7, 2: 0}`. -/
def seriesSevenZero : GoMap := ofList [(1, 7), (2, 0)]

/-- The window `{1: 10, 2: 45}`. -/
def windowTenths : GoMap := ofList [(1, 10), (2, 45)]

/-- The window `{1: 98, 2: 49}`. -/
def windowHalf : GoMap := ofList [(1, 98), (2, 49)]

/-- The series `{1: 3}`. -/
def seriesThree : GoMap := ofList [(1, 3)]

/-- The series `{1: 3, 2: 0}`. -/
def seriesThreeZero : GoMap := ofList [(1, 3), (2, 0)]

/-- The window `{1: 10, 2: 5}`. -/
def windowTie : GoMap := ofList [(1, 10), (2, 5)]

/-- The series `{1: 9223372036854775807}`, the greatest `int64`. -/
def seriesMax : GoMap := ofList [(1, 9223372036854775807)]

/-- The series `{1: 9223372036854775807, 2: 0}`. -/
def seriesMaxZero : GoMap := ofList [(1, 9223372036854775807), (2, 0)]

/-- The window `{1: 1, 2: 4}`. -/
def windowFour : GoMap := ofList [(1, 1), (2, 4)]

/-- The series `{100: 50, 300: 0}`. -/
def seriesFiftyZero : GoMap := ofList [(100, 50), (300, 0)]

/-- The window `{100: 25, 300: 7}`. -/
def windowSeven : GoMap := ofList [(100, 25), (300, 7)]

/-- The series `{1: 1, 2: 1, 3: 1}`. -/
def seriesOnes : GoMap := ofList [(1, 1), (2, 1), (3, 1)]

/-- The window `{1: 1, 2: 1, 3: 12, 4: 18}`, visited in the order `1, 2, 3, 4`. -/
def windowTwelfth : GoMap := ofList [(1, 1), (2, 1), (3, 12), (4, 18)]

/-- The same window `{1: 1, 2: 1, 3: 12, 4: 18}`, visited in the order `3, 1, 2, 4`. -/
def windowTwelfthFirst : GoMap := ofList [(3, 12), (1, 1), (2, 1), (4, 18)]

/-- Go `m[key]`: the stored value, and the zero value `0` for an absent key. -/
def val (m : GoMap) (key : Int) : Int :=
  (m.lookup key).getD 0

/-- The rounding the specification asks for: the nearest integer, a half rounded
away from zero. -/
def roundHalfAway (x : ℚ) : Int :=
  if 0 ≤ x then ⌊x + 1 / 2⌋ else -⌊-x + 1 / 2⌋

/-- The qualifying overlap of the specification: the timestamps present in both
maps at which both values are non-zero. -/
def overlap (existingData newData : GoMap) : Finset Int :=
  newData.keys.toFinset.filter
    (fun t => t ∈ existingData.keys ∧ val existingData t ≠ 0 ∧ val newData t ≠ 0)

/-- The reference definition of the scale estimate, following the specification:
the arithmetic mean of `existing[t] / incoming[t]` over the qualifying overlap,
and `0` when nothing qualifies. -/
def findScaleValueSpec (existingData newData : GoMap) : ℚ :=
  if overlap existingData newData = ∅ then 0
  else (∑ t ∈ overlap existingData newData,
      (val existingData t : ℚ) / (val newData t : ℚ)) /
    ((overlap existingData newData).card : ℚ)

/-- The value the merge loop leaves at a timestamp of the new window, as a function
of the value found in the series before the loop (`none`: a brand new timestamp). -/
def mergedValue (scaleValue : ℚ) (old : Option Int) (value : Int) : Int :=
  match old with
  | some ev =>
    if ev = 0 ∧ value ≠ 0 ∧ scaleValue ≠ 0 then toInt (mathRound ((value : ℚ) * scaleValue))
    else if ev = 0 ∧ value ≠ 0 ∧ scaleValue = 0 then value
    else ev
  | none => toInt (mathRound ((value : ℚ) * scaleValue))

/-- What one entry of the new window adds to `scaleValueSum`. -/
def scaleTerm (existingData : GoMap) (t value : Int) : ℚ :=
  if t ∈ existingData.keys ∧ val existingData t ≠ 0 ∧ value ≠ 0 then
    (val existingData t : ℚ) / (value : ℚ) else 0

/-- What one entry of the new window adds to the counter `n`. -/
def scaleCount (existingData : GoMap) (t value : Int) : Nat :=
  if t ∈ existingData.keys ∧ val existingData t ≠ 0 ∧ value ≠ 0 then 1 else 0

/-! ## Rounding -/

theorem toInt_intCast (n : Int) : toInt (n : ℚ) = n := by
  unfold toInt
  split <;> simp

theorem toInt_mathRound (x : ℚ) : toInt (mathRound x) = roundHalfAway x := by
  unfold mathRound roundHalfAway
  split
  · exact toInt_intCast _
  · rw [← Int.cast_neg]
    exact toInt_intCast _

theorem roundHalfAway_near (x : ℚ) : |x - (roundHalfAway x : ℚ)| ≤ 1 / 2 := by
  unfold roundHalfAway
  split
  · have h1 := Int.floor_le (x + 1 / 2)
    have h2 := Int.lt_floor_add_one (x + 1 / 2)
    rw [abs_le]
    constructor <;> linarith
  · have h1 := Int.floor_le (-x + 1 / 2)
    have h2 := Int.lt_floor_add_one (-x + 1 / 2)
    rw [abs_le]
    push_cast
    constructor <;> linarith

theorem roundHalfAway_tie (x : ℚ) (h : |x - (roundHalfAway x : ℚ)| = 1 / 2) :
    |x| < |(roundHalfAway x : ℚ)| := by
  unfold roundHalfAway at h ⊢
  split at h
  · rename_i hx
    rw [if_pos hx]
    have h1 := Int.floor_le (x + 1 / 2)
    have h2 := Int.lt_floor_add_one (x + 1 / 2)
    have h3 : x - ((⌊x + 1 / 2⌋ : Int) : ℚ) = -(1 / 2) := by
      rcases abs_eq (by norm_num : (0 : ℚ) ≤ 1 / 2) |>.mp h with h4 | h4
      · linarith
      · exact h4
    have h5 : (0 : ℚ) ≤ ((⌊x + 1 / 2⌋ : Int) : ℚ) := by linarith
    rw [abs_of_nonneg hx, abs_of_nonneg h5]
    linarith
  · rename_i hx
    rw [if_neg hx]
    push_cast at h ⊢
    have hx' : x < 0 := not_le.mp hx
    have h1 := Int.floor_le (-x + 1 / 2)
    have h2 := Int.lt_floor_add_one (-x + 1 / 2)
    have h3 : x - -((⌊-x + 1 / 2⌋ : Int) : ℚ) = 1 / 2 := by
      rcases abs_eq (by norm_num : (0 : ℚ) ≤ 1 / 2) |>.mp h with h4 | h4
      · exact h4
      · linarith
    have h5 : -((⌊-x + 1 / 2⌋ : Int) : ℚ) ≤ 0 := by linarith
    rw [abs_of_neg hx', abs_of_nonpos h5]
    linarith

theorem roundHalfAway_intCast (n : Int) : roundHalfAway (n : ℚ) = n := by
  have h := roundHalfAway_near (n : ℚ)
  rw [← Int.cast_sub, ← Int.cast_abs] at h
  have h2 : |n - roundHalfAway (n : ℚ)| < 1 := by
    have : ((|n - roundHalfAway (n : ℚ)| : Int) : ℚ) < ((1 : Int) : ℚ) := by
      push_cast at h ⊢
      linarith
    exact_mod_cast this
  have h3 := Int.abs_lt_one_iff.mp h2
  omega

theorem roundHalfAway_zero : roundHalfAway 0 = 0 := by
  simpa using roundHalfAway_intCast 0

/-! ## The merge loop and the pruning loop -/

theorem lookup_foldl_of_not_mem (f : GoMap → Entry → GoMap)
    (hne : ∀ (m : GoMap) (e : Entry) (t : Int), t ≠ e.1 → (f m e).lookup t = m.lookup t)
    (t : Int) (l : List Entry) (m : GoMap) (ht : t ∉ l.keys) :
    (l.foldl f m).lookup t = m.lookup t := by
  induction l generalizing m with
  | nil => rfl
  | cons e l ih =>
    rw [List.keys_cons, List.mem_cons, not_or] at ht
    rw [List.foldl_cons, ih _ ht.2, hne m e t ht.1]

theorem lookup_foldl_of_mem (f : GoMap → Entry → GoMap) (g : Option Int → Int → Int)
    (hself : ∀ (m : GoMap) (e : Entry), (f m e).lookup e.1 = some (g (m.lookup e.1) e.2))
    (hne : ∀ (m : GoMap) (e : Entry) (t : Int), t ≠ e.1 → (f m e).lookup t = m.lookup t)
    (t v : Int) (l : List Entry) (m : GoMap) (hnd : l.NodupKeys)
    (hmem : (⟨t, v⟩ : Entry) ∈ l) :
    (l.foldl f m).lookup t = some (g (m.lookup t) v) := by
  induction l generalizing m with
  | nil => cases hmem
  | cons e l ih =>
    rw [List.nodupKeys_cons] at hnd
    rw [List.foldl_cons]
    rcases List.mem_cons.mp hmem with h | h
    · subst h
      rw [lookup_foldl_of_not_mem f hne t l _ hnd.1]
      exact hself m ⟨t, v⟩
    · have hte : t ≠ e.1 := by
        intro heq
        apply hnd.1
        rw [← heq]
        exact List.mem_keys_of_mem h
      rw [ih _ hnd.2 h, hne m e t hte]

theorem lookup_normalizeStep_self (s : ℚ) (m : GoMap) (e : Entry) :
    (normalizeStep s m e).lookup e.1 = some (mergedValue s (m.lookup e.1) e.2) := by
  unfold normalizeStep mergedValue
  cases h : m.lookup e.1 with
  | none => simp
  | some ev =>
    simp only
    split_ifs <;> simp [h]

theorem lookup_normalizeStep_ne (s : ℚ) (m : GoMap) (e : Entry) (t : Int) (ht : t ≠ e.1) :
    (normalizeStep s m e).lookup t = m.lookup t := by
  unfold normalizeStep
  cases h : m.lookup e.1 with
  | none => simp [AList.lookup_insert_ne ht]
  | some ev =>
    simp only
    split_ifs <;> simp [AList.lookup_insert_ne ht]

theorem lookup_foldl_prune (W : GoMap) (t : Int) (ks : List Int) (m : GoMap) :
    (ks.foldl (fun m key => if (W.lookup key).isSome then m else m.erase key) m).lookup t
      = if t ∈ ks ∧ (W.lookup t).isSome = false then none else m.lookup t := by
  induction ks generalizing m with
  | nil => simp
  | cons k ks ih =>
    rw [List.foldl_cons, ih]
    by_cases hk : t = k
    · subst hk
      cases hW : (W.lookup t).isSome <;> simp
    · have hne : (AList.erase k m).lookup t = m.lookup t := AList.lookup_erase_ne hk
      cases hW : (W.lookup k).isSome <;> simp [hk, hne]

theorem lookup_prune (m W : GoMap) (t : Int) :
    (prune m W).lookup t = if (W.lookup t).isSome then m.lookup t else none := by
  unfold prune
  rw [lookup_foldl_prune]
  cases hW : (W.lookup t).isSome
  · by_cases hm : t ∈ m.keys
    · simp [hm]
    · have : m.lookup t = none := AList.lookup_eq_none.mpr hm
      simp [this]
  · simp

theorem length_eq_zero_iff (E : GoMap) : E.entries.length = 0 ↔ E = ∅ := by
  constructor
  · intro h
    apply AList.ext
    rw [AList.empty_entries]
    exact List.length_eq_zero.mp h
  · intro h
    subst h
    rfl

/-- First ingest: the series of an empty map merged with a window is the window. -/
theorem lookup_normalizeData_empty (W : GoMap) (t : Int) :
    (normalizeData ∅ W).lookup t = W.lookup t := by
  unfold normalizeData
  rw [if_pos (by rfl)]
  cases h : W.lookup t with
  | none =>
    rw [lookup_foldl_of_not_mem _ _ t _ _ (AList.lookup_eq_none.mp h)]
    · rfl
    · intro m e t ht
      exact AList.lookup_insert_ne ht
  | some v =>
    have hmem : (⟨t, v⟩ : Entry) ∈ W.entries := AList.mem_lookup_iff.mp h
    rw [lookup_foldl_of_mem _ (fun _ v => v) _ _ t v _ _ W.nodupKeys hmem]
    · intro m e
      exact AList.lookup_insert m
    · intro m e t ht
      exact AList.lookup_insert_ne ht

/-- Later merges: at every timestamp of the window the series holds `mergedValue`
of the value it had before, and nothing else survives the pruning. -/
theorem lookup_normalizeData_nonempty (E W : GoMap) (t : Int) (hE : E.entries.length ≠ 0) :
    (normalizeData E W).lookup t
      = (W.lookup t).map (mergedValue (findScaleValue E W) (E.lookup t)) := by
  unfold normalizeData
  rw [if_neg hE]
  simp only
  rw [lookup_prune]
  cases h : W.lookup t with
  | none => simp
  | some v =>
    have hmem : (⟨t, v⟩ : Entry) ∈ W.entries := AList.mem_lookup_iff.mp h
    rw [lookup_foldl_of_mem _ (mergedValue (findScaleValue E W)) (lookup_normalizeStep_self _)
      (lookup_normalizeStep_ne _) t v _ _ W.nodupKeys hmem]
    simp

/-! ## The scale estimate -/

theorem findScaleStep_eq (E : GoMap) (acc : ℚ × Nat) (e : Entry) :
    findScaleStep E acc e = (acc.1 + scaleTerm E e.1 e.2, acc.2 + scaleCount E e.1 e.2) := by
  unfold findScaleStep scaleTerm scaleCount val
  cases h : E.lookup e.1 with
  | none =>
    have hk : e.1 ∉ E.keys := AList.lookup_eq_none.mp h
    simp [hk]
  | some ev =>
    have hk : e.1 ∈ E.keys := by
      have : (E.lookup e.1).isSome := by simp [h]
      exact AList.lookup_isSome.mp this
    by_cases hc : ev ≠ 0 ∧ e.2 ≠ 0
    · simp [hk, hc]
    · have hc' : ¬ (¬ ev = 0 ∧ ¬ e.2 = 0) := hc
      simp only [hk, true_and, Option.getD_some, ne_eq, hc', if_false]
      simp

theorem foldl_findScaleStep (E : GoMap) (l : List Entry) (acc : ℚ × Nat) :
    l.foldl (findScaleStep E) acc
      = (acc.1 + (l.map (fun e => scaleTerm E e.1 e.2)).sum,
         acc.2 + (l.map (fun e => scaleCount E e.1 e.2)).sum) := by
  induction l generalizing acc with
  | nil => simp
  | cons e l ih =>
    rw [List.foldl_cons, ih, findScaleStep_eq]
    simp only [List.map_cons, List.sum_cons]
    ext
    · simp only
      ring
    · simp only
      ring

theorem sum_entries_eq {M : Type} [AddCommMonoid M] (W : GoMap) (F : Int → Int → M) :
    (W.entries.map (fun e => F e.1 e.2)).sum = ∑ t ∈ W.keys.toFinset, F t (val W t) := by
  rw [List.sum_toFinset _ W.keys_nodup]
  unfold AList.keys List.keys
  rw [List.map_map]
  congr 1
  apply List.map_congr_left
  intro e he
  have h : W.lookup e.1 = some e.2 := by
    have : e.2 ∈ W.lookup e.1 := AList.mem_lookup_iff.mpr he
    exact this
  simp [val, h]

theorem sum_scaleTerm (E W : GoMap) :
    (W.entries.map (fun e => scaleTerm E e.1 e.2)).sum
      = ∑ t ∈ overlap E W, (val E t : ℚ) / (val W t : ℚ) := by
  rw [sum_entries_eq W (scaleTerm E)]
  unfold overlap scaleTerm
  rw [Finset.sum_filter]

theorem sum_scaleCount (E W : GoMap) :
    (W.entries.map (fun e => scaleCount E e.1 e.2)).sum = (overlap E W).card := by
  rw [sum_entries_eq W (scaleCount E)]
  unfold overlap scaleCount
  rw [Finset.card_filter]

/-- The loop of `findScaleValue` computes the reference definition. -/
theorem findScaleValue_eq_spec (E W : GoMap) :
    findScaleValue E W = findScaleValueSpec E W := by
  unfold findScaleValue findScaleValueSpec
  simp only [foldl_findScaleStep, sum_scaleTerm, sum_scaleCount, zero_add]
  by_cases h : overlap E W = ∅
  · simp [h]
  · have hc : (overlap E W).card ≠ 0 := by
      rw [Ne, Finset.card_eq_zero]
      exact h
    rw [if_pos hc, if_neg h]

theorem mem_overlap (E W : GoMap) (t : Int) :
    t ∈ overlap E W ↔ ∃ ev v, E.lookup t = some ev ∧ W.lookup t = some v ∧ ev ≠ 0 ∧ v ≠ 0 := by
  unfold overlap val
  rw [Finset.mem_filter, List.mem_toFinset]
  constructor
  · rintro ⟨hW, hE, h1, h2⟩
    cases hEl : E.lookup t with
    | none => simp [hEl] at h1
    | some ev =>
      cases hWl : W.lookup t with
      | none => simp [hWl] at h2
      | some v =>
        refine ⟨ev, v, rfl, rfl, ?_, ?_⟩
        · simpa [hEl] using h1
        · simpa [hWl] using h2
  · rintro ⟨ev, v, hEl, hWl, h1, h2⟩
    refine ⟨?_, ?_, ?_, ?_⟩
    · exact AList.lookup_isSome.mp (by simp [hWl])
    · exact AList.lookup_isSome.mp (by simp [hEl])
    · simpa [hEl] using h1
    · simpa [hWl] using h2

/-! ## Consequences shared by the claims -/

theorem mem_keys_normalizeData (E W : GoMap) (t : Int) :
    t ∈ (normalizeData E W).keys ↔ t ∈ W.keys := by
  have key : ((normalizeData E W).lookup t).isSome = (W.lookup t).isSome := by
    by_cases hE : E.entries.length = 0
    · rw [(length_eq_zero_iff E).mp hE, lookup_normalizeData_empty]
    · rw [lookup_normalizeData_nonempty E W t hE]
      cases W.lookup t <;> rfl
  rw [← AList.mem_keys, ← AList.mem_keys, ← AList.lookup_isSome, ← AList.lookup_isSome, key]

theorem entries_perm_of_lookup_eq (A B : GoMap) (h : ∀ t, A.lookup t = B.lookup t) :
    A.entries.Perm B.entries := by
  apply List.lookup_ext A.nodupKeys B.nodupKeys
  intro x y
  have := h x
  unfold AList.lookup at this
  rw [this]

theorem overlap_eq_empty_iff (E W : GoMap) :
    overlap E W = ∅ ↔
      ∀ t ev v, E.lookup t = some ev → W.lookup t = some v → ev = 0 ∨ v = 0 := by
  rw [Finset.eq_empty_iff_forall_not_mem]
  constructor
  · intro h t ev v hEl hWl
    by_contra hc
    rw [not_or] at hc
    exact h t ((mem_overlap E W t).mpr ⟨ev, v, hEl, hWl, hc.1, hc.2⟩)
  · intro h t ht
    obtain ⟨ev, v, hEl, hWl, h1, h2⟩ := (mem_overlap E W t).mp ht
    rcases h t ev v hEl hWl with h3 | h3
    · exact h1 h3
    · exact h2 h3

theorem findScaleValue_of_overlap_empty (E W : GoMap) (h : overlap E W = ∅) :
    findScaleValue E W = 0 := by
  rw [findScaleValue_eq_spec]
  unfold findScaleValueSpec
  rw [if_pos h]

theorem val_of_lookup (m : GoMap) (t v : Int) (h : m.lookup t = some v) : val m t = v := by
  simp [val, h]

theorem findScaleValue_pos (E W : GoMap)
    (hEn : ∀ t v, E.lookup t = some v → 0 ≤ v) (hWn : ∀ t v, W.lookup t = some v → 0 ≤ v)
    (hne : (overlap E W).Nonempty) : 0 < findScaleValue E W := by
  rw [findScaleValue_eq_spec]
  unfold findScaleValueSpec
  rw [if_neg (Finset.nonempty_iff_ne_empty.mp hne)]
  apply div_pos
  · apply Finset.sum_pos _ hne
    intro t ht
    obtain ⟨ev, v, hEl, hWl, h1, h2⟩ := (mem_overlap E W t).mp ht
    rw [val_of_lookup E t ev hEl, val_of_lookup W t v hWl]
    have he : (0 : ℚ) < (ev : ℚ) := by
      have : 0 < ev := lt_of_le_of_ne (hEn t ev hEl) (Ne.symm h1)
      exact_mod_cast this
    have hv : (0 : ℚ) < (v : ℚ) := by
      have : 0 < v := lt_of_le_of_ne (hWn t v hWl) (Ne.symm h2)
      exact_mod_cast this
    exact div_pos he hv
  · have : 0 < (overlap E W).card := Finset.card_pos.mpr hne
    exact_mod_cast this

theorem lookup_normalizeData_keep (E W : GoMap) (t ev v : Int)
    (hEl : E.lookup t = some ev) (hWl : W.lookup t = some v) (h : ev = 0 → v = 0) :
    (normalizeData E W).lookup t = some ev := by
  have hE : E.entries.length ≠ 0 := by
    intro h0
    rw [(length_eq_zero_iff E).mp h0] at hEl
    simp at hEl
  rw [lookup_normalizeData_nonempty E W t hE, hEl, hWl]
  simp only [Option.map_some', mergedValue]
  by_cases h0 : ev = 0
  · simp [h0, h h0]
  · simp [h0]

theorem lookup_normalizeData_supersede (E W : GoMap) (t v : Int)
    (hEl : E.lookup t = some 0) (hWl : W.lookup t = some v) (hv : v ≠ 0) :
    (normalizeData E W).lookup t
      = some (if findScaleValue E W ≠ 0 then roundHalfAway ((v : ℚ) * findScaleValue E W)
          else v) := by
  have hE : E.entries.length ≠ 0 := by
    intro h0
    rw [(length_eq_zero_iff E).mp h0] at hEl
    simp at hEl
  rw [lookup_normalizeData_nonempty E W t hE, hEl, hWl]
  simp only [Option.map_some', mergedValue, toInt_mathRound]
  by_cases hs : findScaleValue E W = 0
  · simp [hs, hv]
  · simp [hs, hv]

theorem lookup_normalizeData_again (E W : GoMap) (t : Int)
    (h : ∀ v, W.lookup t = some v → (normalizeData E W).lookup t = some 0 → v = 0) :
    (normalizeData (normalizeData E W) W).lookup t = (normalizeData E W).lookup t := by
  cases hWl : W.lookup t with
  | none =>
    have hW : t ∉ W.keys := AList.lookup_eq_none.mp hWl
    have h1 : t ∉ (normalizeData E W).keys := fun hc => hW ((mem_keys_normalizeData E W t).mp hc)
    have h2 : t ∉ (normalizeData (normalizeData E W) W).keys :=
      fun hc => hW ((mem_keys_normalizeData _ W t).mp hc)
    rw [AList.lookup_eq_none.mpr h1, AList.lookup_eq_none.mpr h2]
  | some v =>
    have hW : t ∈ W.keys := AList.lookup_isSome.mp (by simp [hWl])
    have h1 : t ∈ (normalizeData E W).keys := (mem_keys_normalizeData E W t).mpr hW
    have h2 : ((normalizeData E W).lookup t).isSome := AList.lookup_isSome.mpr h1
    obtain ⟨r, hr⟩ := Option.isSome_iff_exists.mp h2
    rw [hr]
    apply lookup_normalizeData_keep _ W t r v hr hWl
    intro hr0
    apply h v hWl
    rw [hr, hr0]

theorem overlap_congr (E E' W W' : GoMap) (hE : ∀ t, E.lookup t = E'.lookup t)
    (hW : ∀ t, W.lookup t = W'.lookup t) : overlap E W = overlap E' W' := by
  ext t
  rw [mem_overlap, mem_overlap]
  simp only [hE, hW]

theorem findScaleValue_congr (E E' W W' : GoMap) (hE : ∀ t, E.lookup t = E'.lookup t)
    (hW : ∀ t, W.lookup t = W'.lookup t) : findScaleValue E W = findScaleValue E' W' := by
  rw [findScaleValue_eq_spec, findScaleValue_eq_spec]
  unfold findScaleValueSpec
  rw [overlap_congr E E' W W' hE hW]
  have hv : ∀ t, (val E t : ℚ) / (val W t : ℚ) = (val E' t : ℚ) / (val W' t : ℚ) := by
    intro t
    unfold val
    rw [hE t, hW t]
  simp only [hv]

/-- The visiting order of the `range` loops does not matter: maps with the same
content give results with the same content. -/
theorem normalizeData_congr (E E' W W' : GoMap) (hE : ∀ t, E.lookup t = E'.lookup t)
    (hW : ∀ t, W.lookup t = W'.lookup t) (t : Int) :
    (normalizeData E W).lookup t = (normalizeData E' W').lookup t := by
  have hlen : E.entries.length = 0 ↔ E'.entries.length = 0 := by
    rw [List.length_eq_zero, List.length_eq_zero]
    constructor
    · intro h
      have hp := entries_perm_of_lookup_eq E E' hE
      rw [h] at hp
      exact hp.symm.eq_nil
    · intro h
      have hp := entries_perm_of_lookup_eq E E' hE
      rw [h] at hp
      exact hp.eq_nil
  by_cases h0 : E.entries.length = 0
  · rw [(length_eq_zero_iff E).mp h0, (length_eq_zero_iff E').mp (hlen.mp h0),
      lookup_normalizeData_empty, lookup_normalizeData_empty, hW t]
  · rw [lookup_normalizeData_nonempty E W t h0,
      lookup_normalizeData_nonempty E' W' t (fun h => h0 (hlen.mpr h)),
      findScaleValue_congr E E' W W' hE hW, hE t, hW t]

/-! ## The machine arithmetic -/

theorem pow2_eq_zpow (k : Int) : pow2 k = (2 : ℚ) ^ k := by
  unfold pow2
  split
  · rename_i h
    conv_rhs => rw [← Int.toNat_of_nonneg h]
    rw [zpow_natCast]
    push_cast
    rfl
  · rename_i h
    have h' : 0 ≤ -k := by omega
    have hk : k = -((-k).toNat : ℤ) := by
      rw [Int.toNat_of_nonneg h']
      ring
    conv_rhs => rw [hk]
    rw [zpow_neg, zpow_natCast]
    push_cast
    rw [one_div]

theorem pow2_pos (k : Int) : 0 < pow2 k := by
  rw [pow2_eq_zpow]
  positivity

theorem pow2_succ (k : Int) : pow2 (k + 1) = 2 * pow2 k := by
  rw [pow2_eq_zpow, pow2_eq_zpow, zpow_add_one₀ (by norm_num : (2 : ℚ) ≠ 0)]
  ring

theorem log2Aux_spec (fuel : Nat) : ∀ n, 1 ≤ n → n ≤ fuel →
    2 ^ log2Aux fuel n ≤ n ∧ n < 2 ^ (log2Aux fuel n + 1) := by
  induction fuel with
  | zero =>
    intro n h1 h2
    omega
  | succ fuel ih =>
    intro n h1 h2
    unfold log2Aux
    by_cases h : 2 ≤ n
    · rw [if_pos h]
      have hdiv1 : 1 ≤ n / 2 := by omega
      have hdiv2 : n / 2 ≤ fuel := by omega
      obtain ⟨h3, h4⟩ := ih (n / 2) hdiv1 hdiv2
      rw [pow_succ, pow_succ (n := log2Aux fuel (n / 2) + 1)]
      constructor <;> omega
    · rw [if_neg h]
      have : n = 1 := by omega
      subst this
      simp

theorem ilog2_spec (n : Nat) (h : 1 ≤ n) : 2 ^ ilog2 n ≤ n ∧ n < 2 ^ (ilog2 n + 1) :=
  log2Aux_spec n n h (le_refl n)

theorem abs_eq_natAbs_div (x : ℚ) : |x| = (x.num.natAbs : ℚ) / (x.den : ℚ) := by
  conv_lhs => rw [← Rat.num_div_den x]
  rw [abs_div, Nat.abs_cast, Nat.cast_natAbs, Int.cast_abs]

/-- The binary exponent brackets the magnitude. -/
theorem binExp_spec (x : ℚ) (hx : x ≠ 0) :
    pow2 (binExp x) ≤ |x| ∧ |x| < pow2 (binExp x + 1) := by
  have hp : 1 ≤ x.num.natAbs := by
    have : x.num ≠ 0 := Rat.num_ne_zero.mpr hx
    omega
  have hq : 1 ≤ x.den := x.den_pos
  obtain ⟨ha1, ha2⟩ := ilog2_spec _ hp
  obtain ⟨hb1, hb2⟩ := ilog2_spec _ hq
  have hA1 : (2 : ℚ) ^ ilog2 x.num.natAbs ≤ (x.num.natAbs : ℚ) := by exact_mod_cast ha1
  have hA2 : (x.num.natAbs : ℚ) < 2 * (2 : ℚ) ^ ilog2 x.num.natAbs := by
    rw [pow_succ] at ha2
    have : ((x.num.natAbs : Nat) : ℚ) < ((2 ^ ilog2 x.num.natAbs * 2 : Nat) : ℚ) := by
      exact_mod_cast ha2
    push_cast at this
    linarith
  have hB1 : (2 : ℚ) ^ ilog2 x.den ≤ (x.den : ℚ) := by exact_mod_cast hb1
  have hB2 : (x.den : ℚ) < 2 * (2 : ℚ) ^ ilog2 x.den := by
    rw [pow_succ] at hb2
    have : ((x.den : Nat) : ℚ) < ((2 ^ ilog2 x.den * 2 : Nat) : ℚ) := by
      exact_mod_cast hb2
    push_cast at this
    linarith
  have hk : pow2 ((ilog2 x.num.natAbs : Int) - (ilog2 x.den : Int))
      = (2 : ℚ) ^ ilog2 x.num.natAbs / (2 : ℚ) ^ ilog2 x.den := by
    rw [pow2_eq_zpow, zpow_sub₀ (by norm_num : (2 : ℚ) ≠ 0), zpow_natCast, zpow_natCast]
  have hPa : (0 : ℚ) < (2 : ℚ) ^ ilog2 x.num.natAbs := by positivity
  have hPb : (0 : ℚ) < (2 : ℚ) ^ ilog2 x.den := by positivity
  have hQ : (0 : ℚ) < (x.den : ℚ) := by exact_mod_cast hq
  have hP : (0 : ℚ) < (x.num.natAbs : ℚ) := by exact_mod_cast hp
  rw [abs_eq_natAbs_div] at *
  unfold binExp
  simp only
  rw [abs_eq_natAbs_div]
  split
  · rename_i h
    refine ⟨h, ?_⟩
    rw [pow2_succ, hk, ← mul_div_assoc, div_lt_div_iff₀ hQ hPb]
    nlinarith
  · rename_i h
    constructor
    · have h2 := pow2_succ ((ilog2 x.num.natAbs : Int) - (ilog2 x.den : Int) - 1)
      rw [sub_add_cancel, hk] at h2
      have h3 : pow2 ((ilog2 x.num.natAbs : Int) - (ilog2 x.den : Int) - 1)
          = (2 : ℚ) ^ ilog2 x.num.natAbs / (2 * (2 : ℚ) ^ ilog2 x.den) := by
        field_simp
        field_simp at h2
        linarith
      rw [h3, div_le_div_iff₀ (by positivity) hQ]
      nlinarith
    · rw [sub_add_cancel]
      exact not_le.mp h

/-- The result of `roundHalfEven` is a nearest integer, and even on a tie. -/
theorem roundHalfEven_spec (y : ℚ) :
    |y - (roundHalfEven y : ℚ)| ≤ 1 / 2 ∧
      (|y - (roundHalfEven y : ℚ)| = 1 / 2 → roundHalfEven y % 2 = 0) := by
  have h1 := Int.floor_le y
  have h2 := Int.lt_floor_add_one y
  unfold roundHalfEven
  split
  · rename_i h
    have habs : |y - ((⌊y⌋ : Int) : ℚ)| = y - ((⌊y⌋ : Int) : ℚ) := abs_of_nonneg (by linarith)
    rw [habs]
    constructor
    · linarith
    · intro hc
      linarith
  · rename_i h
    split
    · rename_i h'
      have habs : |y - ((⌊y⌋ + 1 : Int) : ℚ)| = ((⌊y⌋ : Int) : ℚ) + 1 - y := by
        push_cast
        rw [abs_of_nonpos (by linarith)]
        ring
      rw [habs]
      constructor
      · linarith
      · intro hc
        linarith
    · rename_i h'
      have hhalf : y - ((⌊y⌋ : Int) : ℚ) = 1 / 2 := by linarith
      split
      · rename_i he
        refine ⟨?_, fun _ => he⟩
        rw [hhalf, abs_of_nonneg (by norm_num)]
      · rename_i he
        constructor
        · have : y - ((⌊y⌋ + 1 : Int) : ℚ) = -(1 / 2) := by
            push_cast
            linarith
          rw [this, abs_neg, abs_of_nonneg (by norm_num)]
        · intro _
          omega

theorem binExp_neg (x : ℚ) : binExp (-x) = binExp x := by
  unfold binExp
  simp only [Rat.num_neg_eq_neg_num, Int.natAbs_neg, Rat.den_neg_eq_den, abs_neg]

theorem f64_neg (x : ℚ) : f64 (-x) = -f64 x := by
  unfold f64
  by_cases h0 : x = 0
  · subst h0
    simp
  · have h0' : -x ≠ 0 := neg_ne_zero.mpr h0
    rw [if_neg h0, if_neg h0', binExp_neg]
    by_cases hx : 0 ≤ x
    · have hx' : ¬ (0 ≤ -x) := by
        intro hc
        apply h0
        linarith
      rw [if_pos hx, if_neg hx', neg_neg]
    · have hx' : 0 ≤ -x := by linarith
      rw [if_neg hx, if_pos hx', neg_neg]

/-- For `x > 0`, `f64 x` is `m * 2 ^ e` with a 53 bit significand `m`, within half a
unit `2 ^ e` of `x`, with `m` even when `x` lies half way between two such numbers. -/
theorem f64_spec_pos (x : ℚ) (hx : 0 < x) :
    ∃ m : Int, f64 x = (m : ℚ) * pow2 (binExp x - 52) ∧
      4503599627370496 ≤ m ∧ m ≤ 9007199254740992 ∧
      |f64 x - x| ≤ pow2 (binExp x - 52) / 2 ∧
      (|f64 x - x| = pow2 (binExp x - 52) / 2 → m % 2 = 0) := by
  have h0 : x ≠ 0 := ne_of_gt hx
  obtain ⟨hb1, hb2⟩ := binExp_spec x h0
  rw [abs_of_pos hx] at hb1 hb2
  have hu : 0 < pow2 (binExp x - 52) := pow2_pos _
  have hsplit : pow2 (binExp x) = 4503599627370496 * pow2 (binExp x - 52) := by
    rw [pow2_eq_zpow, pow2_eq_zpow, zpow_sub₀ (by norm_num : (2 : ℚ) ≠ 0)]
    norm_num
    field_simp
  rw [pow2_succ, hsplit] at hb2
  rw [hsplit] at hb1
  obtain ⟨hr1, hr2⟩ := roundHalfEven_spec (x / pow2 (binExp x - 52))
  have hf : f64 x = (roundHalfEven (x / pow2 (binExp x - 52)) : ℚ) * pow2 (binExp x - 52) := by
    unfold f64
    rw [if_neg h0, if_pos (le_of_lt hx)]
  have hy1 : 4503599627370496 ≤ x / pow2 (binExp x - 52) := by
    rw [le_div_iff₀ hu]
    exact hb1
  have hy2 : x / pow2 (binExp x - 52) < 9007199254740992 := by
    rw [div_lt_iff₀ hu]
    linarith
  have hdiff : f64 x - x
      = ((roundHalfEven (x / pow2 (binExp x - 52)) : ℚ) - x / pow2 (binExp x - 52))
        * pow2 (binExp x - 52) := by
    rw [hf]
    field_simp
  have habs : |f64 x - x|
      = |x / pow2 (binExp x - 52) - (roundHalfEven (x / pow2 (binExp x - 52)) : ℚ)|
        * pow2 (binExp x - 52) := by
    rw [hdiff, abs_mul, abs_of_pos hu, abs_sub_comm]
  refine ⟨roundHalfEven (x / pow2 (binExp x - 52)), hf, ?_, ?_, ?_, ?_⟩
  · have h3 := (abs_le.mp hr1).2
    have : ((4503599627370496 : Int) : ℚ) - 1 < (roundHalfEven (x / pow2 (binExp x - 52)) : ℚ) := by
      push_cast
      linarith
    have h4 : (4503599627370496 : Int) - 1 < roundHalfEven (x / pow2 (binExp x - 52)) := by
      exact_mod_cast this
    omega
  · have h3 := (abs_le.mp hr1).1
    have : (roundHalfEven (x / pow2 (binExp x - 52)) : ℚ) < ((9007199254740992 : Int) : ℚ) + 1 := by
      push_cast
      linarith
    have h4 : roundHalfEven (x / pow2 (binExp x - 52)) < (9007199254740992 : Int) + 1 := by
      exact_mod_cast this
    omega
  · rw [habs]
    have := mul_le_mul_of_nonneg_right hr1 (le_of_lt hu)
    linarith
  · intro htie
    apply hr2
    rw [habs] at htie
    have : |x / pow2 (binExp x - 52) - (roundHalfEven (x / pow2 (binExp x - 52)) : ℚ)|
        * pow2 (binExp x - 52) = (1 / 2) * pow2 (binExp x - 52) := by
      rw [htie]
      ring
    exact mul_right_cancel₀ (ne_of_gt hu) this

theorem f64_pos (x : ℚ) (hx : 0 < x) : 0 < f64 x := by
  obtain ⟨m, hf, hm, -⟩ := f64_spec_pos x hx
  rw [hf]
  apply mul_pos _ (pow2_pos _)
  have : (0 : Int) < m := by omega
  exact_mod_cast this

theorem f64_eq_zero_iff (x : ℚ) : f64 x = 0 ↔ x = 0 := by
  constructor
  · intro h
    by_contra hx
    rcases lt_or_gt_of_ne hx with hneg | hpos
    · have h1 := f64_pos (-x) (by linarith)
      rw [f64_neg, h] at h1
      simp at h1
    · have h1 := f64_pos x hpos
      rw [h] at h1
      exact lt_irrefl _ h1
  · intro h
    subst h
    unfold f64
    rw [if_pos rfl]

theorem roundHalfEven_intCast (k : Int) : roundHalfEven (k : ℚ) = k := by
  unfold roundHalfEven
  simp

theorem binExp_le_of_lt (x : ℚ) (hx : 0 < x) (k : Int) (h : x < pow2 k) : binExp x < k := by
  obtain ⟨hb1, -⟩ := binExp_spec x (ne_of_gt hx)
  rw [abs_of_pos hx] at hb1
  by_contra hc
  have hle : k ≤ binExp x := not_lt.mp hc
  have : pow2 k ≤ pow2 (binExp x) := by
    rw [pow2_eq_zpow, pow2_eq_zpow]
    exact zpow_le_zpow_right₀ (by norm_num) hle
  linarith

/-- Integers of at most 53 bits are `float64` numbers. -/
theorem f64_intCast (n : Int) (h : |n| < 9007199254740992) : f64 (n : ℚ) = n := by
  have key : ∀ m : Int, 0 < m → m < 9007199254740992 → f64 (m : ℚ) = m := by
    intro m hm1 hm2
    have hx : (0 : ℚ) < (m : ℚ) := by exact_mod_cast hm1
    have hlt : (m : ℚ) < pow2 53 := by
      have : pow2 53 = 9007199254740992 := by
        rw [pow2_eq_zpow]
        norm_num
      rw [this]
      exact_mod_cast hm2
    have he : binExp (m : ℚ) - 52 ≤ 0 := by
      have := binExp_le_of_lt _ hx 53 hlt
      omega
    obtain ⟨j, hj⟩ : ∃ j : Nat, binExp (m : ℚ) - 52 = -(j : Int) :=
      ⟨(-(binExp (m : ℚ) - 52)).toNat, by rw [Int.toNat_of_nonneg (by omega)]; ring⟩
    unfold f64
    rw [if_neg (ne_of_gt hx), if_pos (le_of_lt hx), hj, pow2_eq_zpow, zpow_neg, zpow_natCast,
      div_inv_eq_mul]
    have hcast : (m : ℚ) * (2 : ℚ) ^ j = ((m * 2 ^ j : Int) : ℚ) := by push_cast; rfl
    rw [hcast, roundHalfEven_intCast]
    push_cast
    field_simp
  rcases lt_trichotomy n 0 with hneg | hzero | hpos
  · have h1 : |n| = -n := abs_of_neg hneg
    have h2 := key (-n) (by omega) (by omega)
    push_cast at h2
    rw [f64_neg] at h2
    linarith
  · subst hzero
    unfold f64
    simp
  · have h1 : |n| = n := abs_of_pos hpos
    exact key n hpos (by omega)

theorem f64_zero : f64 0 = 0 := by
  unfold f64
  rw [if_pos rfl]

/-- Sample values of `f64`: the `float64` numbers written `0.1`, `0.3` and `0.7`, an
exact half, a tie going to the even significand on either side, and the greatest
`int64` going up to `2 ^ 63`. -/
theorem f64_samples :
    f64 (1 / 10) = 3602879701896397 / 36028797018963968 ∧
      f64 (3 / 10) = 5404319552844595 / 18014398509481984 ∧
      f64 (7 / 10) = 3152519739159347 / 4503599627370496 ∧
      f64 (63 / 2) = 63 / 2 ∧
      f64 9007199254740993 = 9007199254740992 ∧
      f64 9007199254740995 = 9007199254740996 ∧
      f64 (-9007199254740995) = -9007199254740996 ∧
      f64 9223372036854775807 = 9223372036854775808 := by
  decide!

theorem mathRound_eq (x : ℚ) : mathRound x = (roundHalfAway x : ℚ) := by
  unfold mathRound roundHalfAway
  split
  · rfl
  · rw [Int.cast_neg]

theorem toInt64_mathRound (x : ℚ) (h : fitsInt64 (roundHalfAway x)) :
    toInt64 (mathRound x) = roundHalfAway x := by
  unfold toInt64
  rw [toInt_mathRound]
  exact if_pos h

theorem lookup_normalizeStepF64_self (s : ℚ) (m : GoMap) (e : Entry) :
    (normalizeStepF64 s m e).lookup e.1 = some (mergedValueF64 s (m.lookup e.1) e.2) := by
  unfold normalizeStepF64 mergedValueF64 scaledF64
  cases h : m.lookup e.1 with
  | none => simp
  | some ev =>
    simp only
    split_ifs <;> simp [h]

theorem lookup_normalizeStepF64_ne (s : ℚ) (m : GoMap) (e : Entry) (t : Int)
    (ht : t ≠ e.1) : (normalizeStepF64 s m e).lookup t = m.lookup t := by
  unfold normalizeStepF64
  cases h : m.lookup e.1 with
  | none => simp [AList.lookup_insert_ne ht]
  | some ev =>
    simp only
    split_ifs <;> simp [AList.lookup_insert_ne ht]

/-- First ingest in machine arithmetic: the copy loop involves no arithmetic. -/
theorem lookup_normalizeDataF64_empty (W : GoMap) (t : Int) :
    (normalizeDataF64 ∅ W).lookup t = W.lookup t :=
  lookup_normalizeData_empty W t

/-- Later merges in machine arithmetic. -/
theorem lookup_normalizeDataF64_nonempty (E W : GoMap) (t : Int)
    (hE : E.entries.length ≠ 0) :
    (normalizeDataF64 E W).lookup t
      = (W.lookup t).map (mergedValueF64 (findScaleValueF64 E W) (E.lookup t)) := by
  unfold normalizeDataF64
  rw [if_neg hE]
  simp only
  rw [lookup_prune]
  cases h : W.lookup t with
  | none => simp
  | some v =>
    have hmem : (⟨t, v⟩ : Entry) ∈ W.entries := AList.mem_lookup_iff.mp h
    rw [lookup_foldl_of_mem _ (mergedValueF64 (findScaleValueF64 E W))
      (lookup_normalizeStepF64_self _) (lookup_normalizeStepF64_ne _) t v _ _ W.nodupKeys hmem]
    simp

/-- The key set after a merge in machine arithmetic is the key set of the window. -/
theorem mem_keys_normalizeDataF64 (E W : GoMap) (t : Int) :
    t ∈ (normalizeDataF64 E W).keys ↔ t ∈ W.keys := by
  have key : ((normalizeDataF64 E W).lookup t).isSome = (W.lookup t).isSome := by
    by_cases hE : E.entries.length = 0
    · rw [(length_eq_zero_iff E).mp hE, lookup_normalizeDataF64_empty]
    · rw [lookup_normalizeDataF64_nonempty E W t hE]
      cases W.lookup t <;> rfl
  rw [← AList.mem_keys, ← AList.mem_keys, ← AList.lookup_isSome, ← AList.lookup_isSome, key]

/-- Recorded values are kept in machine arithmetic too. -/
theorem lookup_normalizeDataF64_keep (E W : GoMap) (t ev v : Int)
    (hEl : E.lookup t = some ev) (hWl : W.lookup t = some v) (h : ev = 0 → v = 0) :
    (normalizeDataF64 E W).lookup t = some ev := by
  have hE : E.entries.length ≠ 0 := by
    intro h0
    rw [(length_eq_zero_iff E).mp h0] at hEl
    simp at hEl
  rw [lookup_normalizeDataF64_nonempty E W t hE, hEl, hWl]
  simp only [Option.map_some', mergedValueF64]
  by_cases h0 : ev = 0
  · simp [h0, h h0]
  · simp [h0]

theorem lookup_normalizeDataF64_new (E W : GoMap) (t v : Int) (hE : E.entries.length ≠ 0)
    (hEl : E.lookup t = none) (hWl : W.lookup t = some v) :
    (normalizeDataF64 E W).lookup t
      = some (toInt64 (mathRound (scaledF64 v (findScaleValueF64 E W)))) := by
  rw [lookup_normalizeDataF64_nonempty E W t hE, hEl, hWl]
  simp only [Option.map_some', mergedValueF64]

theorem lookup_normalizeDataF64_supersede (E W : GoMap) (t v : Int)
    (hEl : E.lookup t = some 0) (hWl : W.lookup t = some v) (hv : v ≠ 0) :
    (normalizeDataF64 E W).lookup t
      = some (if findScaleValueF64 E W ≠ 0 then
          toInt64 (mathRound (scaledF64 v (findScaleValueF64 E W))) else v) := by
  have hE : E.entries.length ≠ 0 := by
    intro h0
    rw [(length_eq_zero_iff E).mp h0] at hEl
    simp at hEl
  rw [lookup_normalizeDataF64_nonempty E W t hE, hEl, hWl]
  simp only [Option.map_some', mergedValueF64]
  by_cases hs : findScaleValueF64 E W = 0
  · simp [hs, hv]
  · simp [hs, hv]

theorem scaledF64_zero (v : Int) : scaledF64 v 0 = 0 := by
  unfold scaledF64
  rw [mul_zero, f64_zero]

theorem scaleCount_eq_one (E : GoMap) (e : Entry) (ev : Int) (h : E.lookup e.1 = some ev)
    (h1 : ev ≠ 0) (h2 : e.2 ≠ 0) : scaleCount E e.1 e.2 = 1 := by
  have hmem : e.1 ∈ E.keys := AList.lookup_isSome.mp (by simp [h])
  unfold scaleCount val
  rw [h]
  simp [hmem, h1, h2]

theorem scaleCount_eq_zero (E : GoMap) (e : Entry)
    (h : ∀ ev, E.lookup e.1 = some ev → ¬ (ev ≠ 0 ∧ e.2 ≠ 0)) : scaleCount E e.1 e.2 = 0 := by
  unfold scaleCount val
  cases hl : E.lookup e.1 with
  | none =>
    have hk : e.1 ∉ E.keys := AList.lookup_eq_none.mp hl
    simp [hk]
  | some ev =>
    have h3 := h ev hl
    rw [if_neg]
    intro hc
    apply h3
    refine ⟨?_, hc.2.2⟩
    simpa using hc.2.1

/-- One round of the `float64` loop when the operations are exact: a qualifying
entry with ratio `c` takes the sum from `j * c` to `(j + 1) * c`. -/
theorem findScaleStepF64_exact (E : GoMap) (c : ℚ) (j : Nat) (e : Entry) (hc1 : f64 c = c)
    (hq : ∀ ev, E.lookup e.1 = some ev → ev ≠ 0 → e.2 ≠ 0 →
      f64 (ev : ℚ) = ev ∧ f64 (e.2 : ℚ) = e.2 ∧ (ev : ℚ) = c * (e.2 : ℚ))
    (hk : scaleCount E e.1 e.2 = 1 →
      f64 (((j + 1 : Nat) : ℚ) * c) = ((j + 1 : Nat) : ℚ) * c) :
    findScaleStepF64 E ((j : ℚ) * c, j) e
      = (((j + scaleCount E e.1 e.2 : Nat) : ℚ) * c, j + scaleCount E e.1 e.2) := by
  unfold findScaleStepF64
  cases h : E.lookup e.1 with
  | none =>
    have hcount : scaleCount E e.1 e.2 = 0 := by
      apply scaleCount_eq_zero
      intro ev hev
      rw [h] at hev
      cases hev
    simp only [hcount, add_zero]
  | some ev =>
    by_cases hcnd : ev ≠ 0 ∧ e.2 ≠ 0
    · have hcount := scaleCount_eq_one E e ev h hcnd.1 hcnd.2
      obtain ⟨h1, h2, h3⟩ := hq ev h hcnd.1 hcnd.2
      have hv : (e.2 : ℚ) ≠ 0 := by exact_mod_cast hcnd.2
      have hdiv : (ev : ℚ) / (e.2 : ℚ) = c := by
        rw [h3]
        field_simp
      have hsum : (j : ℚ) * c + c = ((j + 1 : Nat) : ℚ) * c := by
        push_cast
        ring
      simp only [if_pos hcnd, hcount, h1, h2, hdiv, hc1, hsum, hk hcount]
    · have hcount : scaleCount E e.1 e.2 = 0 := by
        apply scaleCount_eq_zero
        intro ev' hev
        rw [h] at hev
        rw [← Option.some.inj hev]
        exact hcnd
      simp only [if_neg hcnd, hcount, add_zero]

theorem foldl_findScaleStepF64_exact (E : GoMap) (c : ℚ) (hc1 : f64 c = c) (l : List Entry)
    (j : Nat)
    (hq : ∀ e ∈ l, ∀ ev, E.lookup e.1 = some ev → ev ≠ 0 → e.2 ≠ 0 →
      f64 (ev : ℚ) = ev ∧ f64 (e.2 : ℚ) = e.2 ∧ (ev : ℚ) = c * (e.2 : ℚ))
    (hk : ∀ k : Nat, j < k → k ≤ j + (l.map (fun e => scaleCount E e.1 e.2)).sum →
      f64 ((k : ℚ) * c) = (k : ℚ) * c) :
    l.foldl (findScaleStepF64 E) ((j : ℚ) * c, j)
      = (((j + (l.map (fun e => scaleCount E e.1 e.2)).sum : Nat) : ℚ) * c,
         j + (l.map (fun e => scaleCount E e.1 e.2)).sum) := by
  induction l generalizing j with
  | nil => simp
  | cons e l ih =>
    simp only [List.map_cons, List.sum_cons] at hk ⊢
    rw [List.foldl_cons, findScaleStepF64_exact E c j e hc1 (hq e (List.mem_cons_self e l))]
    · rw [ih (j + scaleCount E e.1 e.2) (fun e' he' => hq e' (List.mem_cons_of_mem e he'))]
      · rw [Nat.add_assoc]
      · intro k hk1 hk2
        apply hk k
        · omega
        · omega
    · intro hcount
      apply hk (j + 1)
      · omega
      · omega

/-- In the regime where every `float64` operation of `findScaleValue` is exact, the
estimate is the common ratio `c`. -/
theorem findScaleValueF64_of_proportional (E W : GoMap) (c : ℚ) (hc : 0 < c)
    (hprop : ∀ t ev v, E.lookup t = some ev → W.lookup t = some v → (ev : ℚ) = c * (v : ℚ))
    (hex : ∃ t ev v, E.lookup t = some ev ∧ W.lookup t = some v ∧ v ≠ 0)
    (hEx : ∀ t v, E.lookup t = some v → f64 (v : ℚ) = v)
    (hWx : ∀ t v, W.lookup t = some v → f64 (v : ℚ) = v)
    (hkx : ∀ k : Nat, 1 ≤ k → k ≤ (overlap E W).card →
      f64 (k : ℚ) = k ∧ f64 ((k : ℚ) * c) = (k : ℚ) * c) :
    findScaleValueF64 E W = c := by
  have hne : (overlap E W).Nonempty := by
    obtain ⟨t, ev, v, hEl, hWl, hv⟩ := hex
    refine ⟨t, (mem_overlap E W t).mpr ⟨ev, v, hEl, hWl, ?_, hv⟩⟩
    intro h0
    have h1 := hprop t ev v hEl hWl
    rw [h0] at h1
    have hv' : (v : ℚ) ≠ 0 := by exact_mod_cast hv
    have : c * (v : ℚ) ≠ 0 := mul_ne_zero (ne_of_gt hc) hv'
    apply this
    rw [← h1]
    simp
  have hcard : 1 ≤ (overlap E W).card := Finset.card_pos.mpr hne
  have hc1 : f64 c = c := by
    have := (hkx 1 (le_refl 1) hcard).2
    simpa using this
  have hfold := foldl_findScaleStepF64_exact E c hc1 W.entries 0
    (by
      intro e he ev hEl h1 h2
      have hWl : W.lookup e.1 = some e.2 := AList.mem_lookup_iff.mpr he
      exact ⟨hEx e.1 ev hEl, hWx e.1 e.2 hWl, hprop e.1 ev e.2 hEl hWl⟩)
    (by
      intro k hk1 hk2
      rw [zero_add, sum_scaleCount] at hk2
      exact (hkx k hk1 hk2).2)
  rw [zero_add, sum_scaleCount] at hfold
  unfold findScaleValueF64
  have h00 : ((0 : ℚ), (0 : Nat)) = (((0 : Nat) : ℚ) * c, 0) := by simp
  rw [h00, hfold]
  simp only
  have hcard0 : (overlap E W).card ≠ 0 := by omega
  rw [if_pos hcard0, (hkx _ hcard (le_refl _)).1]
  have hq : (((overlap E W).card : ℚ) * c) / ((overlap E W).card : ℚ) = c := by
    have : ((overlap E W).card : ℚ) ≠ 0 := by exact_mod_cast hcard0
    field_simp
  rw [hq, hc1]

theorem lookup_ofList_single (k a t v : Int) (h : (ofList [(k, a)]).lookup t = some v) :
    t = k ∧ v = a := by
  have hdef : ofList [(k, a)] = AList.insert k a ∅ := rfl
  rw [hdef] at h
  by_cases ht : t = k
  · subst ht
    rw [AList.lookup_insert] at h
    exact ⟨rfl, (Option.some.inj h).symm⟩
  · rw [AList.lookup_insert_ne ht, AList.lookup_empty] at h
    cases h

theorem forall_lookup_of_forall_entries (W : GoMap) (P : Int → Int → Prop)
    (h : ∀ e ∈ W.entries, P e.1 e.2) : ∀ t v, W.lookup t = some v → P t v := by
  intro t v hl
  exact h ⟨t, v⟩ (AList.mem_lookup_iff.mp hl)

/-- A second merge in machine arithmetic keeps every value that is not a zero facing
a non-zero value of the window. -/
theorem lookup_normalizeDataF64_again (E W : GoMap) (t : Int)
    (h : ∀ v, W.lookup t = some v → (normalizeDataF64 E W).lookup t = some 0 → v = 0) :
    (normalizeDataF64 (normalizeDataF64 E W) W).lookup t = (normalizeDataF64 E W).lookup t := by
  cases hWl : W.lookup t with
  | none =>
    have hW : t ∉ W.keys := AList.lookup_eq_none.mp hWl
    have h1 : t ∉ (normalizeDataF64 E W).keys :=
      fun hc => hW ((mem_keys_normalizeDataF64 E W t).mp hc)
    have h2 : t ∉ (normalizeDataF64 (normalizeDataF64 E W) W).keys :=
      fun hc => hW ((mem_keys_normalizeDataF64 _ W t).mp hc)
    rw [AList.lookup_eq_none.mpr h1, AList.lookup_eq_none.mpr h2]
  | some v =>
    have hW : t ∈ W.keys := AList.lookup_isSome.mp (by simp [hWl])
    have h1 : t ∈ (normalizeDataF64 E W).keys := (mem_keys_normalizeDataF64 E W t).mpr hW
    have h2 : ((normalizeDataF64 E W).lookup t).isSome := AList.lookup_isSome.mpr h1
    obtain ⟨r, hr⟩ := Option.isSome_iff_exists.mp h2
    rw [hr]
    apply lookup_normalizeDataF64_keep _ W t r v hr hWl
    intro hr0
    apply h v hWl
    rw [hr, hr0]

/-- The sample merges in machine arithmetic: `{100: 50}` with `{100: 25, 200: 10}`
gives scale `2` and `{100: 50, 200: 20}`; `{100: 0}` with `{100: 5, 200: 5}` gives
scale `0` and `{100: 5, 200: 0}`; `{1: 1}` with `{1: 5, 2: 3, 3: 2}` gives
`{1: 1, 2: 1, 3: 0}`, and merging the same window again turns key `3` into `1`. -/
theorem normalizeDataF64_samples :
    findScaleValueF64 seriesFifty windowQuarter = 2 ∧
      (normalizeDataF64 seriesFifty windowQuarter).lookup 100 = some 50 ∧
      (normalizeDataF64 seriesFifty windowQuarter).lookup 200 = some 20 ∧
      findScaleValueF64 seriesZero windowFive = 0 ∧
      (normalizeDataF64 seriesZero windowFive).lookup 100 = some 5 ∧
      (normalizeDataF64 seriesZero windowFive).lookup 200 = some 0 ∧
      (normalizeDataF64 seriesUnit windowMixed).lookup 1 = some 1 ∧
      (normalizeDataF64 seriesUnit windowMixed).lookup 2 = some 1 ∧
      (normalizeDataF64 seriesUnit windowMixed).lookup 3 = some 0 ∧
      (normalizeDataF64 (normalizeDataF64 seriesUnit windowMixed) windowMixed).lookup 3
        = some 1 := by
  decide!

/-- The machine result can depend on the order in which `range` visits the window:
the `float64` sum `1 + 1 + 1/12` is not the sum `1/12 + 1 + 1`, and the new key `4`
of `{1: 1, 2: 1, 3: 12, 4: 18}` merged into `{1: 1, 2: 1, 3: 1}` gets `13` in one
order and `12` in the other. -/
theorem normalizeDataF64_order_sample :
    (∀ t, windowTwelfth.lookup t = windowTwelfthFirst.lookup t) ∧
      (normalizeDataF64 seriesOnes windowTwelfth).lookup 4 = some 13 ∧
      (normalizeDataF64 seriesOnes windowTwelfthFirst).lookup 4 = some 12 := by
  refine ⟨?_, by decide!, by decide!⟩
  intro t
  apply AList.perm_lookup
  decide

theorem foldl_findScaleStepF64_snd (E : GoMap) (l : List Entry) (acc : ℚ × Nat) :
    (l.foldl (findScaleStepF64 E) acc).2
      = acc.2 + (l.map (fun e => scaleCount E e.1 e.2)).sum := by
  induction l generalizing acc with
  | nil => simp
  | cons e l ih =>
    rw [List.foldl_cons, ih, List.map_cons, List.sum_cons, ← Nat.add_assoc]
    congr 1
    unfold findScaleStepF64
    cases h : E.lookup e.1 with
    | none =>
      have hcount : scaleCount E e.1 e.2 = 0 := by
        apply scaleCount_eq_zero
        intro ev hev
        rw [h] at hev
        cases hev
      simp only [hcount, add_zero]
    | some ev =>
      by_cases hcnd : ev ≠ 0 ∧ e.2 ≠ 0
      · dsimp only
        rw [if_pos hcnd, scaleCount_eq_one E e ev h hcnd.1 hcnd.2]
      · have hcount : scaleCount E e.1 e.2 = 0 := by
          apply scaleCount_eq_zero
          intro ev' hev
          rw [h] at hev
          rw [← Option.some.inj hev]
          exact hcnd
        dsimp only
        rw [if_neg hcnd, hcount, add_zero]

theorem foldl_findScaleStepF64_pos (E : GoMap) (l : List Entry) (acc : ℚ × Nat)
    (hEn : ∀ t v, E.lookup t = some v → 0 ≤ v) (hn : ∀ e ∈ l, 0 ≤ e.2)
    (h0 : 0 ≤ acc.1) (h1 : acc.2 ≠ 0 → 0 < acc.1) :
    0 ≤ (l.foldl (findScaleStepF64 E) acc).1 ∧
      ((l.foldl (findScaleStepF64 E) acc).2 ≠ 0 → 0 < (l.foldl (findScaleStepF64 E) acc).1) := by
  induction l generalizing acc with
  | nil => exact ⟨h0, h1⟩
  | cons e l ih =>
    rw [List.foldl_cons]
    apply ih _ (fun e' he' => hn e' (List.mem_cons_of_mem e he'))
    · unfold findScaleStepF64
      cases h : E.lookup e.1 with
      | none => exact h0
      | some ev =>
        by_cases hcnd : ev ≠ 0 ∧ e.2 ≠ 0
        · dsimp only
          rw [if_pos hcnd]
          have he : (0 : ℚ) < (ev : ℚ) := by
            have : 0 < ev := lt_of_le_of_ne (hEn e.1 ev h) (Ne.symm hcnd.1)
            exact_mod_cast this
          have hv : (0 : ℚ) < (e.2 : ℚ) := by
            have : 0 < e.2 := lt_of_le_of_ne (hn e (List.mem_cons_self e l)) (Ne.symm hcnd.2)
            exact_mod_cast this
          have ht := f64_pos _ (div_pos (f64_pos _ he) (f64_pos _ hv))
          exact le_of_lt (f64_pos _ (by linarith))
        · dsimp only
          rw [if_neg hcnd]
          exact h0
    · unfold findScaleStepF64
      cases h : E.lookup e.1 with
      | none => exact h1
      | some ev =>
        by_cases hcnd : ev ≠ 0 ∧ e.2 ≠ 0
        · dsimp only
          rw [if_pos hcnd]
          intro _
          have he : (0 : ℚ) < (ev : ℚ) := by
            have : 0 < ev := lt_of_le_of_ne (hEn e.1 ev h) (Ne.symm hcnd.1)
            exact_mod_cast this
          have hv : (0 : ℚ) < (e.2 : ℚ) := by
            have : 0 < e.2 := lt_of_le_of_ne (hn e (List.mem_cons_self e l)) (Ne.symm hcnd.2)
            exact_mod_cast this
          have ht := f64_pos _ (div_pos (f64_pos _ he) (f64_pos _ hv))
          exact f64_pos _ (by linarith)
        · dsimp only
          rw [if_neg hcnd]
          exact h1

/-- On non-negative data the `float64` estimate is `0` exactly when no overlap point
qualifies, and positive otherwise. -/
theorem findScaleValueF64_pos_iff (E W : GoMap)
    (hEn : ∀ t v, E.lookup t = some v → 0 ≤ v) (hWn : ∀ t v, W.lookup t = some v → 0 ≤ v) :
    ((overlap E W).Nonempty → 0 < findScaleValueF64 E W) ∧
      (overlap E W = ∅ → findScaleValueF64 E W = 0) := by
  have hsnd := foldl_findScaleStepF64_snd E W.entries (0, 0)
  rw [sum_scaleCount] at hsnd
  simp only [zero_add] at hsnd
  have hpos := foldl_findScaleStepF64_pos E W.entries (0, 0) hEn
    (fun e he => hWn e.1 e.2 (AList.mem_lookup_iff.mpr he)) (le_refl _) (fun h => absurd rfl h)
  constructor
  · intro hne
    have hcard : (overlap E W).card ≠ 0 := (Finset.card_pos.mpr hne).ne'
    unfold findScaleValueF64
    simp only
    rw [hsnd] at hpos ⊢
    rw [if_pos hcard]
    apply f64_pos
    apply div_pos (hpos.2 hcard)
    apply f64_pos
    have : 0 < (overlap E W).card := Finset.card_pos.mpr hne
    exact_mod_cast this
  · intro hempty
    unfold findScaleValueF64
    simp only
    rw [hsnd, hempty]
    simp

/-- Proportional maps in machine arithmetic: shared timestamps keep their value, and
when the `float64` operations are exact the estimate is the ratio `c` and every merged
value is `round (c * W[t])`. -/
theorem consistent_scale_of_exact (E W : GoMap) (c : ℚ) (hE : E.entries.length ≠ 0)
    (hc : 0 < c)
    (hprop : ∀ t ev v, E.lookup t = some ev → W.lookup t = some v → (ev : ℚ) = c * (v : ℚ))
    (hex : ∃ t ev v, E.lookup t = some ev ∧ W.lookup t = some v ∧ v ≠ 0) :
    (∀ t ev v, E.lookup t = some ev → W.lookup t = some v →
        (normalizeDataF64 E W).lookup t = some (roundHalfAway (c * (v : ℚ)))) ∧
      ((∀ t v, E.lookup t = some v → f64 (v : ℚ) = v) →
        (∀ t v, W.lookup t = some v → f64 (v : ℚ) = v) →
        (∀ k : Nat, 1 ≤ k → k ≤ (overlap E W).card →
          f64 (k : ℚ) = k ∧ f64 ((k : ℚ) * c) = (k : ℚ) * c) →
        (∀ t v, W.lookup t = some v →
          f64 ((v : ℚ) * c) = (v : ℚ) * c ∧ fitsInt64 (roundHalfAway (c * (v : ℚ)))) →
        findScaleValueF64 E W = c ∧
          ∀ t v, W.lookup t = some v →
            (normalizeDataF64 E W).lookup t = some (roundHalfAway (c * (v : ℚ)))) := by
  have hshared : ∀ t ev v, E.lookup t = some ev → W.lookup t = some v →
      (normalizeDataF64 E W).lookup t = some (roundHalfAway (c * (v : ℚ))) := by
    intro t ev v hEl hWl
    have h1 := hprop t ev v hEl hWl
    have h2 : ev = 0 → v = 0 := by
      intro h0
      rw [h0] at h1
      have h3 : c * (v : ℚ) = 0 := by
        rw [← h1]
        simp
      rcases mul_eq_zero.mp h3 with h4 | h4
      · exact absurd h4 (ne_of_gt hc)
      · exact_mod_cast h4
    rw [lookup_normalizeDataF64_keep E W t ev v hEl hWl h2, ← h1, roundHalfAway_intCast]
  refine ⟨hshared, ?_⟩
  intro hEx hWx hkx hpx
  have hs := findScaleValueF64_of_proportional E W c hc hprop hex hEx hWx hkx
  refine ⟨hs, ?_⟩
  intro t v hWl
  cases hEl : E.lookup t with
  | some ev => exact hshared t ev v hEl hWl
  | none =>
    obtain ⟨h1, h2⟩ := hpx t v hWl
    rw [lookup_normalizeDataF64_new E W t v hE hEl hWl, hs]
    unfold scaledF64
    rw [hWx t v hWl, h1, mul_comm, toInt64_mathRound _ h2]

/-- The exact regime contains the integer scales: when `E[t] = c * W[t]` on the
overlap for a positive integer `c`, and the values, the products `c * W[t]` and
`n * c` for the number `n` of qualifying points stay below `2 ^ 53` in magnitude,
the `float64` estimate is `c` and every merged value is `c * W[t]`. -/
theorem consistent_scale_integer (E W : GoMap) (c : Nat) (hE : E.entries.length ≠ 0)
    (hc : 0 < c)
    (hprop : ∀ t ev v, E.lookup t = some ev → W.lookup t = some v → ev = (c : Int) * v)
    (hex : ∃ t ev v, E.lookup t = some ev ∧ W.lookup t = some v ∧ v ≠ 0)
    (hEb : ∀ t v, E.lookup t = some v → |v| < 9007199254740992)
    (hWb : ∀ t v, W.lookup t = some v →
      |v| < 9007199254740992 ∧ |(c : Int) * v| < 9007199254740992)
    (hn : (overlap E W).card * c < 9007199254740992) :
    findScaleValueF64 E W = (c : ℚ) ∧
      ∀ t v, W.lookup t = some v →
        (normalizeDataF64 E W).lookup t = some ((c : Int) * v) := by
  have hc' : (0 : ℚ) < (c : ℚ) := by exact_mod_cast hc
  have h := (consistent_scale_of_exact E W (c : ℚ) hE hc'
    (by
      intro t ev v hEl hWl
      rw [hprop t ev v hEl hWl]
      push_cast
      rfl) hex).2
    (fun t v hl => f64_intCast v (hEb t v hl))
    (fun t v hl => f64_intCast v (hWb t v hl).1)
    (by
      intro k hk1 hk2
      have hkc : k * c ≤ (overlap E W).card * c := Nat.mul_le_mul_right c hk2
      have hk3 : k ≤ k * c := Nat.le_mul_of_pos_right k hc
      constructor
      · have := f64_intCast (k : Int) (by
          rw [abs_of_nonneg (by omega)]
          omega)
        simpa using this
      · have := f64_intCast ((k * c : Nat) : Int) (by
          rw [abs_of_nonneg (by omega)]
          omega)
        simpa using this)
    (by
      intro t v hl
      obtain ⟨-, h2⟩ := hWb t v hl
      have hr : roundHalfAway ((c : ℚ) * (v : ℚ)) = (c : Int) * v := by
        have := roundHalfAway_intCast ((c : Int) * v)
        simpa using this
      constructor
      · have := f64_intCast ((c : Int) * v) h2
        push_cast at this
        rw [mul_comm ((v : ℚ)) ((c : ℚ))]
        exact this
      · rw [hr]
        have h3 := abs_lt.mp h2
        constructor <;> omega)
  refine ⟨h.1, ?_⟩
  intro t v hl
  rw [h.2 t v hl]
  have := roundHalfAway_intCast ((c : Int) * v)
  push_cast at this
  rw [this]

/-! ## The claims -/

/-- C1: after `normalizeData(existing, incoming)` the key set of the series is exactly
the key set of the incoming window, for every series and every window, the empty
ones included: every timestamp of the window is present and no other remains. -/
theorem C1_key_set_is_window (E W : GoMap) :
    (∀ t, t ∈ (normalizeData E W).keys ↔ t ∈ W.keys) ∧
      (normalizeData E W).keys.toFinset = W.keys.toFinset := by
  refine ⟨mem_keys_normalizeData E W, ?_⟩
  ext t
  rw [List.mem_toFinset, List.mem_toFinset]
  exact mem_keys_normalizeData E W t

/-- C2: first ingest is the identity: merging a window into the empty series yields
a series with the same timestamps and the same unscaled values as the window. -/
theorem C2_first_ingest_identity (W : GoMap) :
    (∀ t, (normalizeData ∅ W).lookup t = W.lookup t) ∧
      (normalizeData ∅ W).entries.Perm W.entries :=
  ⟨lookup_normalizeData_empty W,
    entries_perm_of_lookup_eq _ _ (lookup_normalizeData_empty W)⟩

/-- C3: `findScaleValue` equals its reference definition, the mean of
`existing[t] / incoming[t]` over the timestamps present in both maps with both
values non-zero and `0` when there is none; so it is `0` when the maps share no
timestamp and when every shared timestamp has a zero on at least one side. -/
theorem C3_findScaleValue_reference (E W : GoMap) :
    findScaleValue E W = findScaleValueSpec E W ∧
      ((∀ t, t ∈ W.keys → t ∉ E.keys) → findScaleValue E W = 0) ∧
      ((∀ t ev v, E.lookup t = some ev → W.lookup t = some v → ev = 0 ∨ v = 0) →
        findScaleValue E W = 0) := by
  refine ⟨findScaleValue_eq_spec E W, ?_, ?_⟩
  · intro h
    apply findScaleValue_of_overlap_empty
    rw [overlap_eq_empty_iff]
    intro t ev v hEl hWl
    exfalso
    apply h t
    · exact AList.lookup_isSome.mp (by simp [hWl])
    · exact AList.lookup_isSome.mp (by simp [hEl])
  · intro h
    apply findScaleValue_of_overlap_empty
    rw [overlap_eq_empty_iff]
    exact h

/-- Witness of C3: on `{100: 50}` and `{100: 25, 200: 10}` the estimate is the
reference value `2`; it is `0` on `{100: 0}` and `{100: 5, 200: 5}`, where the only
shared timestamp has a zero, and on `{300: 7}` and `{100: 5, 200: 5}`, which share
no timestamp. -/
theorem C3_findScaleValue_reference_witness :
    findScaleValue seriesFifty windowQuarter = findScaleValueSpec seriesFifty windowQuarter ∧
      findScaleValueSpec seriesFifty windowQuarter = 2 ∧
      findScaleValue seriesZero windowFive = 0 ∧
      findScaleValue (ofList [(300, 7)]) windowFive = 0 :=
  ⟨(C3_findScaleValue_reference seriesFifty windowQuarter).1, by decide!,
    (C3_findScaleValue_reference seriesZero windowFive).2.2 (by
      intro t ev v hEl _
      left
      by_cases ht : t = 100
      · subst ht
        have h0 : seriesZero.lookup 100 = some 0 := by decide
        rw [h0] at hEl
        exact (Option.some.inj hEl).symm
      · have h0 : seriesZero.lookup t = none := by
          rw [AList.lookup_eq_none]
          intro hc
          have : t ∈ [(100 : Int)] := hc
          simp at this
          exact ht this
        rw [h0] at hEl
        cases hEl),
    (C3_findScaleValue_reference (ofList [(300, 7)]) windowFive).2.1 (by decide)⟩

/-- C4 fails as stated: `{1: 7}` is `7/10` times `{1: 10, 2: 45}` on the overlap, but
the `float64` estimate is the number written `0.7`, which is below `7/10`, and the
new key `2` gets `31`, while `round (7/10 * 45) = 32`. -/
theorem C4_scale_not_exact :
    seriesSeven.entries.length ≠ 0 ∧
      (∀ t ev v, seriesSeven.lookup t = some ev → windowTenths.lookup t = some v →
        (ev : ℚ) = 7 / 10 * (v : ℚ)) ∧
      (∃ t ev v, seriesSeven.lookup t = some ev ∧ windowTenths.lookup t = some v ∧ v ≠ 0) ∧
      findScaleValueF64 seriesSeven windowTenths = 3152519739159347 / 4503599627370496 ∧
      findScaleValueF64 seriesSeven windowTenths ≠ 7 / 10 ∧
      windowTenths.lookup 2 = some 45 ∧
      roundHalfAway (7 / 10 * ((45 : Int) : ℚ)) = 32 ∧
      (normalizeDataF64 seriesSeven windowTenths).lookup 2 = some 31 := by
  refine ⟨by decide, ?_, ⟨1, 7, 10, by decide, by decide, by decide⟩, by decide!, by decide!,
    by decide, by decide!, by decide!⟩
  intro t ev v hEl hWl
  obtain ⟨ht, hev⟩ := lookup_ofList_single 1 7 t ev hEl
  subst ht
  have h1 : windowTenths.lookup 1 = some 10 := by decide
  rw [h1] at hWl
  rw [hev, ← Option.some.inj hWl]
  norm_num

/-- C4 as amended: when the series is non-empty and `E[t] = c * W[t]` at every shared
timestamp for a rational `c > 0`, with some shared timestamp where `W[t] ≠ 0`, the
merged series has the timestamps of `W` and no other, the merged value at every
shared timestamp is `E[t] = round (c * W[t])`; and when the
`float64` operations are exact (the values of both maps, the counts `k` and the
partial sums `k * c` up to the number of qualifying points and the products
`W[t] * c` are `float64` numbers, and `round (c * W[t])` fits 64 bits), then
`findScaleValue E W = c` and the merged value at every timestamp `t` of `W` is
`round (c * W[t])`. -/
theorem C4_consistent_scale_when_exact (E W : GoMap) (c : ℚ) (hE : E.entries.length ≠ 0)
    (hc : 0 < c)
    (hprop : ∀ t ev v, E.lookup t = some ev → W.lookup t = some v → (ev : ℚ) = c * (v : ℚ))
    (hex : ∃ t ev v, E.lookup t = some ev ∧ W.lookup t = some v ∧ v ≠ 0) :
    (∀ t, t ∈ (normalizeDataF64 E W).keys ↔ t ∈ W.keys) ∧
      (∀ t ev v, E.lookup t = some ev → W.lookup t = some v →
        (normalizeDataF64 E W).lookup t = some (roundHalfAway (c * (v : ℚ)))) ∧
      ((∀ t v, E.lookup t = some v → f64 (v : ℚ) = v) →
        (∀ t v, W.lookup t = some v → f64 (v : ℚ) = v) →
        (∀ k : Nat, 1 ≤ k → k ≤ (overlap E W).card →
          f64 (k : ℚ) = k ∧ f64 ((k : ℚ) * c) = (k : ℚ) * c) →
        (∀ t v, W.lookup t = some v →
          f64 ((v : ℚ) * c) = (v : ℚ) * c ∧ fitsInt64 (roundHalfAway (c * (v : ℚ)))) →
        findScaleValueF64 E W = c ∧
          ∀ t v, W.lookup t = some v →
            (normalizeDataF64 E W).lookup t = some (roundHalfAway (c * (v : ℚ)))) :=
  ⟨mem_keys_normalizeDataF64 E W, consistent_scale_of_exact E W c hE hc hprop hex⟩

/-- Witness of C4 as amended: `{100: 50}` is `2` times `{100: 25, 200: 10}` on the
overlap, every `float64` operation is exact, the scale is `2` and the merged series
is `{100: 50, 200: 20}`. -/
theorem C4_consistent_scale_when_exact_witness :
    findScaleValueF64 seriesFifty windowQuarter = 2 ∧
      ∀ t v, windowQuarter.lookup t = some v →
        (normalizeDataF64 seriesFifty windowQuarter).lookup t
          = some (roundHalfAway (2 * (v : ℚ))) :=
  (C4_consistent_scale_when_exact seriesFifty windowQuarter 2 (by decide) (by norm_num)
    (by
      intro t ev v hEl hWl
      obtain ⟨ht, hev⟩ := lookup_ofList_single 100 50 t ev hEl
      subst ht
      have h1 : windowQuarter.lookup 100 = some 25 := by decide
      rw [h1] at hWl
      rw [hev, ← Option.some.inj hWl]
      norm_num)
    ⟨100, 50, 25, by decide, by decide, by decide⟩).2.2
    (forall_lookup_of_forall_entries seriesFifty (fun _ v => f64 (v : ℚ) = v) (by decide!))
    (forall_lookup_of_forall_entries windowQuarter (fun _ v => f64 (v : ℚ) = v) (by decide!))
    (by
      intro k hk1 hk2
      have hcard : (overlap seriesFifty windowQuarter).card = 1 := by decide!
      rw [hcard] at hk2
      have hk : k = 1 := by omega
      subst hk
      decide!)
    (forall_lookup_of_forall_entries windowQuarter
      (fun _ v => f64 ((v : ℚ) * 2) = (v : ℚ) * 2 ∧ fitsInt64 (roundHalfAway (2 * (v : ℚ))))
      (by decide!))

/-- C5: already-recorded values are never overwritten: at a timestamp present in
both maps with `existing[t] ≠ 0` or `incoming[t] = 0`, the value after
`normalizeData` is the value the series had before the call. -/
theorem C5_recorded_value_kept (E W : GoMap) (t ev v : Int)
    (hEl : E.lookup t = some ev) (hWl : W.lookup t = some v) (h : ev ≠ 0 ∨ v = 0) :
    (normalizeData E W).lookup t = some ev := by
  apply lookup_normalizeData_keep E W t ev v hEl hWl
  intro h0
  rcases h with h1 | h1
  · exact absurd h0 h1
  · exact h1

/-- Witness of C5: `{100: 50}` merged with `{100: 25, 200: 10}` leaves key `100`
at `50`. -/
theorem C5_recorded_value_kept_witness :
    (normalizeData seriesFifty windowQuarter).lookup 100 = some 50 :=
  C5_recorded_value_kept seriesFifty windowQuarter 100 50 25 (by decide) (by decide)
    (Or.inl (by decide))

/-- C6 fails as stated, however the product `incoming[t] * s` is read. With the
exact mean `7/10` of `{1: 7, 2: 0}` and `{1: 10, 2: 45}`, `round (45 * 7/10) = 32`, but
key `2` gets `31`. With the `float64` estimate `s` of `{1: 3, 2: 0}` and
`{1: 10, 2: 5}` (the number written `0.3`), `5 * s < 3/2` rounds to `1`, but key `2`
gets `2`. With `{1: 9223372036854775807, 2: 0}` and `{1: 1, 2: 4}` the rounded product
is `2 ^ 65`, which no `int` holds, and key `2` gets the least `int64`. -/
theorem C6_rounding_differs :
    (seriesSevenZero.lookup 2 = some 0 ∧ windowTenths.lookup 2 = some 45 ∧
        findScaleValue seriesSevenZero windowTenths = 7 / 10 ∧
        findScaleValueF64 seriesSevenZero windowTenths ≠ 0 ∧
        roundHalfAway (((45 : Int) : ℚ) * (7 / 10)) = 32 ∧
        (normalizeDataF64 seriesSevenZero windowTenths).lookup 2 = some 31) ∧
      (seriesThreeZero.lookup 2 = some 0 ∧ windowTie.lookup 2 = some 5 ∧
        findScaleValueF64 seriesThreeZero windowTie = 5404319552844595 / 18014398509481984 ∧
        roundHalfAway (((5 : Int) : ℚ) * findScaleValueF64 seriesThreeZero windowTie) = 1 ∧
        (normalizeDataF64 seriesThreeZero windowTie).lookup 2 = some 2) ∧
      (seriesMaxZero.lookup 2 = some 0 ∧ windowFour.lookup 2 = some 4 ∧
        findScaleValueF64 seriesMaxZero windowFour = 9223372036854775808 ∧
        roundHalfAway (scaledF64 4 (findScaleValueF64 seriesMaxZero windowFour))
          = 36893488147419103232 ∧
        (normalizeDataF64 seriesMaxZero windowFour).lookup 2
          = some (-9223372036854775808)) := by
  decide!

/-- C6 as amended: at a timestamp `t` present in both maps with `existing[t] = 0` and
`incoming[t] ≠ 0`, with `s` the `float64` estimate of `findScaleValue`: when `s ≠ 0`
and the rounded `float64` product `float64(incoming[t]) * s` fits 64 bits, the value
after `normalizeData` is the integer nearest to that product, a tie going away from
zero; when `s = 0` it is the raw `incoming[t]`. -/
theorem C6_zero_superseded_float (E W : GoMap) (t v : Int)
    (hEl : E.lookup t = some 0) (hWl : W.lookup t = some v) (hv : v ≠ 0) :
    (findScaleValueF64 E W ≠ 0 →
        fitsInt64 (roundHalfAway (scaledF64 v (findScaleValueF64 E W))) →
        ∃ r : Int, (normalizeDataF64 E W).lookup t = some r ∧
          r = roundHalfAway (scaledF64 v (findScaleValueF64 E W)) ∧
          |scaledF64 v (findScaleValueF64 E W) - (r : ℚ)| ≤ 1 / 2 ∧
          (|scaledF64 v (findScaleValueF64 E W) - (r : ℚ)| = 1 / 2 →
            |scaledF64 v (findScaleValueF64 E W)| < |(r : ℚ)|)) ∧
      (findScaleValueF64 E W = 0 → (normalizeDataF64 E W).lookup t = some v) := by
  have h := lookup_normalizeDataF64_supersede E W t v hEl hWl hv
  constructor
  · intro hs hfit
    refine ⟨roundHalfAway (scaledF64 v (findScaleValueF64 E W)), ?_, rfl,
      roundHalfAway_near _, roundHalfAway_tie _⟩
    rw [h, if_pos hs, toInt64_mathRound _ hfit]
  · intro hs
    rw [h, if_neg (not_not.mpr hs)]

/-- Witness of C6 as amended: for `{100: 0}` and `{100: 5, 200: 5}` the scale is `0`
and the merged value at key `100` is the raw `5`; for `{100: 50, 300: 0}` and
`{100: 25, 300: 7}` the scale is `2` and the merged value at key `300` is `14`. -/
theorem C6_zero_superseded_float_witness :
    (findScaleValueF64 seriesZero windowFive = 0 ∧
        (normalizeDataF64 seriesZero windowFive).lookup 100 = some 5) ∧
      (findScaleValueF64 seriesFiftyZero windowSeven = 2 ∧
        (normalizeDataF64 seriesFiftyZero windowSeven).lookup 300 = some 14) := by
  have h0 : findScaleValueF64 seriesZero windowFive = 0 := by decide!
  have h2 : findScaleValueF64 seriesFiftyZero windowSeven = 2 := by decide!
  refine ⟨⟨h0, ?_⟩, ⟨h2, ?_⟩⟩
  · exact (C6_zero_superseded_float seriesZero windowFive 100 5 (by decide) (by decide)
      (by decide)).2 h0
  · obtain ⟨r, hr, hval, -⟩ :=
      (C6_zero_superseded_float seriesFiftyZero windowSeven 300 7 (by decide) (by decide)
        (by decide)).1 (by decide!) (by decide!)
    have h14 : roundHalfAway (scaledF64 7 (findScaleValueF64 seriesFiftyZero windowSeven))
        = 14 := by decide!
    rw [hr, hval, h14]

/-- C7 fails as stated, however the product `incoming[t] * s` is read. With the exact
mean `1/98` of `{1: 1}` and `{1: 98, 2: 49}`, `round (49 * 1/98) = 1`, but the new key
`2` gets `0`. With the `float64` estimate `s` of `{1: 3}` and `{1: 10, 2: 5}` (the
number written `0.3`), `5 * s < 3/2` rounds to `1`, but the new key `2` gets `2`. With
`{1: 9223372036854775807}` and `{1: 1, 2: 4}` the rounded product is `2 ^ 65`, which no
`int` holds, and the new key `2` gets the least `int64`. -/
theorem C7_rounding_differs :
    (seriesUnit.lookup 2 = none ∧ windowHalf.lookup 2 = some 49 ∧
        findScaleValue seriesUnit windowHalf = 1 / 98 ∧
        roundHalfAway (((49 : Int) : ℚ) * (1 / 98)) = 1 ∧
        (normalizeDataF64 seriesUnit windowHalf).lookup 2 = some 0) ∧
      (seriesThree.lookup 2 = none ∧ windowTie.lookup 2 = some 5 ∧
        findScaleValueF64 seriesThree windowTie = 5404319552844595 / 18014398509481984 ∧
        roundHalfAway (((5 : Int) : ℚ) * findScaleValueF64 seriesThree windowTie) = 1 ∧
        (normalizeDataF64 seriesThree windowTie).lookup 2 = some 2) ∧
      (seriesMax.lookup 2 = none ∧ windowFour.lookup 2 = some 4 ∧
        findScaleValueF64 seriesMax windowFour = 9223372036854775808 ∧
        roundHalfAway (scaledF64 4 (findScaleValueF64 seriesMax windowFour))
          = 36893488147419103232 ∧
        (normalizeDataF64 seriesMax windowFour).lookup 2
          = some (-9223372036854775808)) := by
  decide!

/-- C7 as amended: a timestamp of the window that a non-empty series does not have is
inserted scaled: with `s` the `float64` estimate of `findScaleValue`, when the rounded
`float64` product `float64(incoming[t]) * s` fits 64 bits, the value after
`normalizeData` is the integer `r` nearest to that product, a tie going away from
zero; it is `0` when `s = 0`. -/
theorem C7_new_timestamp_scaled_float (E W : GoMap) (t v : Int) (hE : E.entries.length ≠ 0)
    (hEl : E.lookup t = none) (hWl : W.lookup t = some v)
    (hfit : fitsInt64 (roundHalfAway (scaledF64 v (findScaleValueF64 E W)))) :
    ∃ r : Int, (normalizeDataF64 E W).lookup t = some r ∧
      r = roundHalfAway (scaledF64 v (findScaleValueF64 E W)) ∧
      |scaledF64 v (findScaleValueF64 E W) - (r : ℚ)| ≤ 1 / 2 ∧
      (|scaledF64 v (findScaleValueF64 E W) - (r : ℚ)| = 1 / 2 →
        |scaledF64 v (findScaleValueF64 E W)| < |(r : ℚ)|) ∧
      (findScaleValueF64 E W = 0 → r = 0) := by
  refine ⟨roundHalfAway (scaledF64 v (findScaleValueF64 E W)), ?_, rfl,
    roundHalfAway_near _, roundHalfAway_tie _, ?_⟩
  · rw [lookup_normalizeDataF64_new E W t v hE hEl hWl, toInt64_mathRound _ hfit]
  · intro hs
    rw [hs, scaledF64_zero, roundHalfAway_zero]

/-- Witness of C7 as amended: `{100: 50}` with `{100: 25, 200: 10}` gives `20` at the
new key `200`; `{100: 0}` with `{100: 5, 200: 5}` gives `0` at the new key `200`. -/
theorem C7_new_timestamp_scaled_float_witness :
    (normalizeDataF64 seriesFifty windowQuarter).lookup 200 = some 20 ∧
      (normalizeDataF64 seriesZero windowFive).lookup 200 = some 0 := by
  obtain ⟨r, h1, h2, -⟩ :=
    C7_new_timestamp_scaled_float seriesFifty windowQuarter 200 10 (by decide) (by decide)
      (by decide) (by decide!)
  obtain ⟨r', h3, -, -, -, h4⟩ :=
    C7_new_timestamp_scaled_float seriesZero windowFive 200 5 (by decide) (by decide)
      (by decide) (by decide!)
  have hr : roundHalfAway (scaledF64 10 (findScaleValueF64 seriesFifty windowQuarter))
      = 20 := by decide!
  rw [h1, h3, h2, hr, h4 (by decide!)]
  exact ⟨rfl, rfl⟩

/-- C8, the code at the failing input: for the series `{100: 0}` and the window
`{100: 5, 200: 5}` no scale can be estimated, key `200` is new with the non-zero raw
value `5`, and `normalizeData` stores `0` there, not the raw `5`. -/
theorem C8_new_timestamp_no_raw_fallback :
    seriesZero.entries.length ≠ 0 ∧
      findScaleValue seriesZero windowFive = 0 ∧
      seriesZero.lookup 200 = none ∧
      windowFive.lookup 200 = some 5 ∧
      (normalizeData seriesZero windowFive).lookup 200 = some 0 ∧
      (normalizeData seriesZero windowFive).lookup 200 ≠ some 5 := by
  decide!

/-- C9 fails as stated: merging `{1: 5, 2: 3, 3: 2}` into `{1: 1}` has scale `1/5`
and gives `{1: 1, 2: 1, 3: 0}`; merging the same window into that result has scale
`4/15` and changes key `3` from `0` to `1`. -/
theorem C9_not_idempotent :
    findScaleValue seriesUnit windowMixed = 1 / 5 ∧
      (normalizeData seriesUnit windowMixed).lookup 2 = some 1 ∧
      (normalizeData seriesUnit windowMixed).lookup 3 = some 0 ∧
      findScaleValue (normalizeData seriesUnit windowMixed) windowMixed = 4 / 15 ∧
      (normalizeData (normalizeData seriesUnit windowMixed) windowMixed).lookup 3 = some 1 ∧
      ¬ (∀ t, (normalizeData (normalizeData seriesUnit windowMixed) windowMixed).lookup t
          = (normalizeData seriesUnit windowMixed).lookup t) := by
  refine ⟨by decide!, by decide!, by decide!, by decide!, by decide!, ?_⟩
  intro h
  have h1 := h 3
  revert h1
  decide!

/-- C9 as amended: with `R` the series produced by `normalizeData(E, W)`, a second
`normalizeData(R, W)` leaves the value at `t` (and whether `t` is a key) as in `R`,
unless `R[t] = 0` while `W[t] ≠ 0`. -/
theorem C9_idempotent_off_zeros (E W : GoMap) (t : Int)
    (h : ∀ v, W.lookup t = some v → (normalizeData E W).lookup t = some 0 → v = 0) :
    (normalizeData (normalizeData E W) W).lookup t = (normalizeData E W).lookup t :=
  lookup_normalizeData_again E W t h

/-- Witness of C9 as amended: for `{100: 50}` and `{100: 25, 200: 10}` the merged
value at key `200` is `20`, not a zero, and the second merge keeps it. -/
theorem C9_idempotent_off_zeros_witness :
    (normalizeData (normalizeData seriesFifty windowQuarter) windowQuarter).lookup 200
      = (normalizeData seriesFifty windowQuarter).lookup 200 :=
  C9_idempotent_off_zeros seriesFifty windowQuarter 200 (by
    intro v _ h0
    have h20 : (normalizeData seriesFifty windowQuarter).lookup 200 = some 20 := by decide!
    rw [h20] at h0
    exact absurd (Option.some.inj h0) (by decide))

/-- C10: on non-negative data the sentinel `0` is unambiguous: `findScaleValue` is
strictly positive when some timestamp is present in both maps with both values
non-zero, it is `0` exactly when no overlap point qualifies, and the guard of the raw
fallback branch of `normalizeData` (a zero in the series, a non-zero incoming value,
scale `0`) holds only when no overlap point qualifies. -/
theorem C10_zero_scale_unambiguous (E W : GoMap)
    (hEn : ∀ t v, E.lookup t = some v → 0 ≤ v) (hWn : ∀ t v, W.lookup t = some v → 0 ≤ v) :
    ((∃ t ev v, E.lookup t = some ev ∧ W.lookup t = some v ∧ ev ≠ 0 ∧ v ≠ 0) →
        0 < findScaleValue E W) ∧
      (findScaleValue E W = 0 ↔
        ¬ ∃ t ev v, E.lookup t = some ev ∧ W.lookup t = some v ∧ ev ≠ 0 ∧ v ≠ 0) ∧
      (∀ t v, E.lookup t = some 0 → W.lookup t = some v → v ≠ 0 →
        findScaleValue E W = 0 →
          (normalizeData E W).lookup t = some v ∧
            ¬ ∃ t ev v, E.lookup t = some ev ∧ W.lookup t = some v ∧ ev ≠ 0 ∧ v ≠ 0) := by
  have hpos : (∃ t ev v, E.lookup t = some ev ∧ W.lookup t = some v ∧ ev ≠ 0 ∧ v ≠ 0) →
      0 < findScaleValue E W := by
    rintro ⟨t, hq⟩
    exact findScaleValue_pos E W hEn hWn ⟨t, (mem_overlap E W t).mpr hq⟩
  have hiff : findScaleValue E W = 0 ↔
      ¬ ∃ t ev v, E.lookup t = some ev ∧ W.lookup t = some v ∧ ev ≠ 0 ∧ v ≠ 0 := by
    constructor
    · intro h0 hq
      exact absurd h0 (ne_of_gt (hpos hq))
    · intro hq
      apply findScaleValue_of_overlap_empty
      rw [Finset.eq_empty_iff_forall_not_mem]
      intro t ht
      exact hq ⟨t, (mem_overlap E W t).mp ht⟩
  refine ⟨hpos, hiff, ?_⟩
  intro t v hEl hWl hv hs
  refine ⟨?_, hiff.mp hs⟩
  rw [lookup_normalizeData_supersede E W t v hEl hWl hv, if_neg (not_not.mpr hs)]

/-- Witness of C10: `{100: 50}` and `{100: 25, 200: 10}` are non-negative and
overlap at key `100` with both values non-zero, and the estimate is positive. -/
theorem C10_zero_scale_unambiguous_witness :
    0 < findScaleValue seriesFifty windowQuarter :=
  (C10_zero_scale_unambiguous seriesFifty windowQuarter
    (by
      intro t v h
      by_cases ht : t = 100
      · subst ht
        have h0 : seriesFifty.lookup 100 = some 50 := by decide
        rw [h0] at h
        rw [← Option.some.inj h]
        decide
      · have h0 : seriesFifty.lookup t = none := by
          rw [AList.lookup_eq_none]
          intro hc
          have : t ∈ [(100 : Int)] := hc
          simp at this
          exact ht this
        rw [h0] at h
        cases h)
    (by
      intro t v h
      have hmem : (⟨t, v⟩ : Entry) ∈ windowQuarter.entries := AList.mem_lookup_iff.mp h
      have hl : windowQuarter.entries = [⟨100, 25⟩, ⟨200, 10⟩] := by decide
      rw [hl] at hmem
      simp only [List.mem_cons, Sigma.mk.inj_iff, heq_eq_eq, List.mem_singleton,
        List.not_mem_nil, or_false] at hmem
      rcases hmem with ⟨-, h2⟩ | ⟨-, h2⟩ <;> rw [h2] <;> decide)).1
    ⟨100, 50, 25, by decide, by decide, by decide, by decide⟩

end GTrends
